import Mathlib

/-!
Verification development for the telescope image-registration pipeline
(`core.py`).  The numeric pipeline is shallowly embedded over exact
rationals: a float value that may be NaN is `Option ℚ` (with `none`
playing the role of NaN), images are finite grids of rationals, and the
external collaborators declared in the design document (sigma-clipped
robust statistics, the DAOStarFinder detector, the scipy Gaussian
fitter, the ccdproc stack combiner) are taken as parameters of the
functions that call them.

Squared distances: the source stores Euclidean distances
`sqrt(dx^2 + dy^2)`, which are irrational in general.  To keep every
definition executable, the embedding stores the squared distance and
transforms each comparison accordingly (`sqrt d2 < 20` becomes
`d2 < 400`; `sqrt d2 <= t` becomes `0 <= t ∧ d2 <= t^2`).  Statements
that speak about the actual distance do so through `Real.sqrt` applied
to the stored square.
-/

set_option maxHeartbeats 1000000

/-- A float value that may be NaN: `none` is NaN, `some q` is the value. -/
abbrev RVal := Option ℚ

/-- An image: a `hgt × wid` grid of pixel intensities.  Pixels are addressed
as `pix row col`; values outside the grid are irrelevant (all statements
about whole images go through `sameOnGrid`). -/
structure Image where
  hgt : ℕ
  wid : ℕ
  pix : ℤ → ℤ → ℚ

/-- Two images agree on the grid: same dimensions and equal pixels at every
in-bounds position. -/
def sameOnGrid (a b : Image) : Prop :=
  a.hgt = b.hgt ∧ a.wid = b.wid ∧
    ∀ r c : ℤ, 0 ≤ r → r < (a.hgt : ℤ) → 0 ≤ c → c < (a.wid : ℤ) →
      a.pix r c = b.pix r c

/-- One detected star: the columns of the detector's table that the core
pipeline reads (id, xcentroid, ycentroid, flux, peak). -/
structure StarRec where
  sid : ℤ
  x : ℚ
  y : ℚ
  flux : ℚ
  peak : ℚ
  deriving DecidableEq, Inhabited

/-- A detection table: an ordered list of star records. -/
abbrev StarTable := List StarRec

/-- One row of the shift table produced by `calculate_shift`:
(squared total distance, dx, dy), each possibly NaN.  The source stores
the plain distance; the embedding stores its square (see file header). -/
abbrev ShiftRow := RVal × RVal × RVal

/-- NaN-aware `>=` against a plain threshold: any comparison with NaN is
false, as in IEEE floats / numpy. -/
def rge (a : RVal) (t : ℚ) : Bool :=
  match a with
  | none => false
  | some q => decide (t ≤ q)

/-- `np.round(q, 0)` as an integer: round half to even (numpy's rounding
rule), composed with the exact `int` conversion. -/
def np_round (q : ℚ) : ℤ :=
  let f : ℤ := ⌊q⌋
  let r : ℚ := q - f
  if r < 1/2 then f
  else if 1/2 < r then f + 1
  else if Even f then f else f + 1

/-- Insert into an ascending-sorted list of rationals. -/
def insertAsc (x : ℚ) : List ℚ → List ℚ
  | [] => [x]
  | y :: ys => if x ≤ y then x :: y :: ys else y :: insertAsc x ys

/-- Ascending insertion sort of a list of rationals. -/
def sortAsc (l : List ℚ) : List ℚ := l.foldr insertAsc []

/-- `np.median` over a vector that may contain NaNs: the median of an empty
vector is NaN, a vector containing a NaN has median NaN (numpy returns NaN
whenever the last element of the sorting partition is NaN), otherwise sort
ascending and take the middle element (odd length) or the mean of the two
middle elements (even length). -/
def np_median (l : List RVal) : RVal :=
  if l.any (fun v => v.isNone) then none
  else
    let vs := l.filterMap id
    if vs.isEmpty then none
    else
      let s := sortAsc vs
      let n := s.length
      if n % 2 = 1 then some (s.getD (n / 2) 0)
      else some ((s.getD (n / 2 - 1) 0 + s.getD (n / 2) 0) / 2)

/-- `np.roll(image, (dy, dx), axis=(0, 1))`: circular translation, content
moves down by `dy` rows and right by `dx` columns, wrapping around. -/
def np_roll (im : Image) (dy dx : ℤ) : Image :=
  ⟨im.hgt, im.wid, fun r c =>
    im.pix ((r - dy) % (im.hgt : ℤ)) ((c - dx) % (im.wid : ℤ))⟩

/-- Minimum of a list of rationals, `none` on the empty list (where
`np.min` raises). -/
def npMin : List ℚ → Option ℚ
  | [] => none
  | x :: xs => some (xs.foldl min x)

theorem foldl_min_le (xs : List ℚ) : ∀ (init : ℚ), xs.foldl min init ≤ init ∧
    ∀ z ∈ xs, xs.foldl min init ≤ z := by
  induction xs with
  | nil => intro init; simp
  | cons a as ih =>
    intro init
    simp only [List.foldl_cons]
    rcases ih (min init a) with ⟨h1, h2⟩
    refine ⟨le_trans h1 (min_le_left _ _), ?_⟩
    intro z hz
    rcases List.mem_cons.mp hz with rfl | hz'
    · exact le_trans h1 (min_le_right _ _)
    · exact h2 z hz'

theorem foldl_min_mem (xs : List ℚ) :
    ∀ (init : ℚ), xs.foldl min init = init ∨ xs.foldl min init ∈ xs := by
  induction xs with
  | nil => intro init; simp
  | cons a as ih =>
    intro init
    simp only [List.foldl_cons]
    rcases ih (min init a) with h1 | h1
    · rw [h1]
      rcases min_choice init a with h2 | h2
      · left; exact h2
      · right; rw [h2]; exact List.mem_cons_self _ _
    · right; exact List.mem_cons_of_mem _ h1

theorem npMin_le {l : List ℚ} {m : ℚ} (h : npMin l = some m) :
    ∀ x ∈ l, m ≤ x := by
  match l with
  | [] => simp [npMin] at h
  | x :: xs =>
    simp only [npMin, Option.some.injEq] at h
    subst h
    intro y hy
    rcases List.mem_cons.mp hy with rfl | hy'
    · exact (foldl_min_le xs y).1
    · exact (foldl_min_le xs x).2 y hy'

theorem npMin_mem {l : List ℚ} {m : ℚ} (h : npMin l = some m) : m ∈ l := by
  match l with
  | [] => simp [npMin] at h
  | x :: xs =>
    simp only [npMin, Option.some.injEq] at h
    subst h
    rcases foldl_min_mem xs x with h1 | h1
    · rw [h1]; exact List.mem_cons_self _ _
    · exact List.mem_cons_of_mem _ h1

/-- Error-propagating map: the python `for` loop body applied in order,
stopping at the first raised exception. -/
def mapE {α β : Type} (f : α → Except Unit β) : List α → Except Unit (List β)
  | [] => .ok []
  | a :: t =>
    match f a with
    | .error e => .error e
    | .ok b =>
      match mapE f t with
      | .error e => .error e
      | .ok bs => .ok (b :: bs)

/-- Squared Euclidean distance between two star centroids
(`dx**2 + dy**2` before the source's `sqrt`). -/
def starD2 (a b : StarRec) : ℚ := (a.x - b.x)^2 + (a.y - b.y)^2

/-- One row of `calculate_shift`: for reference star `s1`, distances to
every target star, the position(s) attaining the minimum, then the
`< 20` tolerance test.  An empty target table makes `np.min` raise; a tie
makes `if distances[match] < 20` raise (truth value of a multi-element
array is ambiguous).  The first component of an assigned row is the
squared minimum distance (see file header). -/
def shiftRow (s1 : StarRec) (stars2 : StarTable) : Except Unit ShiftRow :=
  let dxs := stars2.map (fun s2 => s1.x - s2.x)
  let dys := stars2.map (fun s2 => s1.y - s2.y)
  let ds := stars2.map (fun s2 => starD2 s1 s2)
  match npMin ds with
  | none => .error ()
  | some m =>
    match (List.range ds.length).filter (fun j => decide (ds.getD j 0 = m)) with
    | [j] =>
        if m < 400 then .ok (some m, some (dxs.getD j 0), some (dys.getD j 0))
        else .ok (none, none, none)
    | _ => .error ()

/-- The Star Matcher: one `ShiftRow` per reference star, in reference
order (`diff` starts as an all-NaN array and row `i` is assigned only
when the minimum distance is under the tolerance). -/
def calculate_shift (stars1 stars2 : StarTable) : Except Unit (List ShiftRow) :=
  mapE (fun s1 => shiftRow s1 stars2) stars1

/-- The Frame Shifter (`roll_image`): the median of the WHOLE first
column (NaN sentinels included — `np.median`, not `np.nanmedian`) gates
the shift; the shifts are the medians of the dx and dy columns, rounded
half-to-even; `np.int(nan)` raises. -/
def roll_image (image : Image) (diff : List ShiftRow) (threshold : ℚ) :
    Except Unit Image :=
  if rge (np_median (diff.map (fun r => r.1))) threshold then
    match np_median (diff.map (fun r => r.2.1)),
          np_median (diff.map (fun r => r.2.2)) with
    | some xshift, some yshift =>
        .ok (np_roll image (np_round yshift) (np_round xshift))
    | _, _ => .error ()
  else .ok image

/-- Modelled from the spec: the Frame Shifter as the specification words
it — "take the median of all valid (non-sentinel) total distances; if
below threshold, return the original image.  Otherwise take the median dx
and dy across valid records, round each to the nearest integer, and apply
a circular translation by (round(dy), round(dx))". -/
def roll_image_validspec (image : Image) (diff : List ShiftRow)
    (threshold : ℚ) : Image :=
  let valid := diff.filter (fun r => r.1.isSome && r.2.1.isSome && r.2.2.isSome)
  if rge (np_median (valid.map (fun r => r.1))) threshold then
    match np_median (valid.map (fun r => r.2.1)),
          np_median (valid.map (fun r => r.2.2)) with
    | some xshift, some yshift =>
        np_roll image (np_round yshift) (np_round xshift)
    | _, _ => image
  else image

/-- Decidable recoding of "median of the square roots of `l` reaches `t`"
for a vector of squared distances (`l` entries are nonnegative squares).
Odd length: `sqrt m >= t` iff `t <= 0 ∨ t^2 <= m`.  Even length:
`(sqrt a + sqrt b) / 2 >= t` iff `2t <= 0 ∨ 4t^2 <= a + b ∨
(4t^2 - a - b)^2 <= 4ab`.  NaN present or empty vector: false (NaN
comparisons are false). -/
def sqrtMedianGe (l : List RVal) (t : ℚ) : Bool :=
  if l.any (fun v => v.isNone) then false
  else
    let vs := l.filterMap id
    if vs.isEmpty then false
    else
      let s := sortAsc vs
      let n := s.length
      if n % 2 = 1 then decide (t ≤ 0 ∨ t ^ 2 ≤ s.getD (n / 2) 0)
      else
        let a := s.getD (n / 2 - 1) 0
        let b := s.getD (n / 2) 0
        decide (2 * t ≤ 0 ∨ 4 * t ^ 2 ≤ a + b ∨
          (4 * t ^ 2 - a - b) ^ 2 ≤ 4 * (a * b))

/-- The Frame Shifter exactly as composed inside `image_combiner`: same as
`roll_image`, but the first column of `diff` carries squared distances
(the embedding's representation of `calculate_shift` output), so the
source's `np.median(distances) >= threshold` is recoded through
`sqrtMedianGe`. -/
def roll_image_sq (image : Image) (diff : List ShiftRow) (threshold : ℚ) :
    Except Unit Image :=
  if sqrtMedianGe (diff.map (fun r => r.1)) threshold then
    match np_median (diff.map (fun r => r.2.1)),
          np_median (diff.map (fun r => r.2.2)) with
    | some xshift, some yshift =>
        .ok (np_roll image (np_round yshift) (np_round xshift))
    | _, _ => .error ()
  else .ok image

/-- `calculate_shift` as invoked by `image_combiner`, where either
argument may be the detector's `None`: subscripting `None` raises
(TypeError), except that a zero-row reference table never touches the
target table. -/
def calc_shift_opt (s1 s2 : Option StarTable) : Except Unit (List ShiftRow) :=
  match s1 with
  | none => .error ()
  | some t1 =>
    match s2 with
    | some t2 => calculate_shift t1 t2
    | none => if t1.isEmpty then .ok [] else .error ()

/-- The Registration Orchestrator (`image_combiner`).  The Star Detector
and Stack Combiner are external collaborators, passed as `detect` and
`combine`.  Faithful to the source: the `if s is None` short-circuit
tests the leftover loop variable — the LAST frame's detection, not the
reference frame's — and an empty frame list leaves `s` unbound
(NameError). -/
def image_combiner (detect : Image → Option StarTable)
    (combine : List Image → Image) (im_data : List Image) :
    Except Unit (Option Image) :=
  let stars := im_data.map detect
  match stars.getLast? with
  | none => .error ()
  | some none => .ok none
  | some (some _) => do
      let diffs ← mapE (fun s => calc_shift_opt (stars.getD 0 none) s) stars
      let images ← mapE (fun i =>
        roll_image_sq (im_data.getD i ⟨0, 0, fun _ _ => 0⟩)
          (diffs.getD i []) (1 / 2)) (List.range im_data.length)
      .ok (some (combine images))

/-- Edge-proximity keep test of `image_mask`: centroid farther than
`hsize = (100 - 1)/2 = 49.5` px from every border. -/
def edgeOKb (imH imW : ℕ) (s : StarRec) : Bool :=
  decide ((99 / 2 : ℚ) < s.x ∧ s.x < (imW : ℚ) - 1 - 99 / 2 ∧
          (99 / 2 : ℚ) < s.y ∧ s.y < (imH : ℚ) - 1 - 99 / 2)

/-- Crowding test between two rows of the edge-filtered table: distinct
detector ids and separation at most `5*fwhm` (recoded on squares:
`sqrt d2 <= t` iff `0 <= t ∧ d2 <= t^2`). -/
def crowdPairB (fwhm : ℚ) (a b : StarRec) : Bool :=
  decide (a.sid ≠ b.sid ∧ 0 ≤ 5 * fwhm ∧ starD2 a b ≤ (5 * fwhm) ^ 2)

/-- The descending-flux order used by `stars_tbl.sort('flux',
reverse=True)`. -/
def fluxGE (a b : StarRec) : Prop := b.flux ≤ a.flux

instance : DecidableRel fluxGE := fun a b => inferInstanceAs (Decidable (b.flux ≤ a.flux))

instance : IsTotal StarRec fluxGE := ⟨fun a b => le_total b.flux a.flux⟩

instance : IsTrans StarRec fluxGE := ⟨fun _ _ _ h1 h2 => le_trans h2 h1⟩

/-- Sort a table by descending flux (`stars_tbl.sort('flux', reverse=True)`). -/
def sortFluxDesc (l : StarTable) : StarTable := List.insertionSort fluxGE l

/-- `Table.remove_rows(d)`: keep, in order, the rows whose index is not
in `d` (`k` is the index of the first row of `l`). -/
def keepRows {α : Type} (d : List ℕ) : ℕ → List α → List α
  | _, [] => []
  | k, a :: t =>
    if k ∈ d then keepRows d (k + 1) t else a :: keepRows d (k + 1) t

/-- The rejection-index list `d` of `image_mask` over the edge-filtered
table: the nested index loops append `idxi` once per close distinct-id
partner (so both members of a pair land in `d`), then the low-peak loop
appends every index whose peak is at or below `bkg + 10*bkg_std`. -/
def dRejected (imH imW : ℕ) (sources : StarTable) (fwhm bkg bkg_std : ℚ) :
    List ℕ :=
  (List.range (sources.filter (edgeOKb imH imW)).length).flatMap (fun i =>
    (List.range (sources.filter (edgeOKb imH imW)).length).filterMap (fun j =>
      if crowdPairB fwhm ((sources.filter (edgeOKb imH imW)).getD i default)
          ((sources.filter (edgeOKb imH imW)).getD j default)
      then some i else none)) ++
  (List.range (sources.filter (edgeOKb imH imW)).length).filterMap (fun k =>
    if ((sources.filter (edgeOKb imH imW)).getD k default).peak ≤
        bkg + 10 * bkg_std
    then some k else none)

/-- The Star Selector (`image_mask`): edge filter, then `remove_rows` of
the rejection-index list `dRejected` (crowding and low peak, unioned),
descending-flux sort, and the top/bottom-5 trim only when more than 10
rows remain. -/
def image_mask (imH imW : ℕ) (sources : StarTable) (fwhm bkg bkg_std : ℚ) :
    StarTable :=
  let sorted := sortFluxDesc (keepRows (dRejected imH imW sources fwhm bkg bkg_std)
    0 (sources.filter (edgeOKb imH imW)))
  if 10 < sorted.length then (sorted.drop 5).take (sorted.length - 10)
  else sorted

/-- Is grid position `(r, c)` inside the subtraction window of star
position `s = (x, y)`: a square of side `5*fwhm` (strict open bounds)
centered on the half-even-rounded integer position. -/
def inWindowB (fwhm : ℚ) (s : ℚ × ℚ) (r c : ℤ) : Bool :=
  let px : ℤ := np_round s.1
  let py : ℤ := np_round s.2
  let size := 5 * fwhm
  decide ((py : ℚ) - size / 2 < (r : ℚ) ∧ (r : ℚ) < (py : ℚ) + size / 2 ∧
          (px : ℚ) - size / 2 < (c : ℚ) ∧ (c : ℚ) < (px : ℚ) + size / 2)

/-- One star's pass of `bkg_sub`: the external annulus/sigma-clip
collaborator `est` estimates the background on the CURRENT working image,
and that scalar is subtracted (`-=`) from every in-grid pixel inside the
star's window. -/
def bkg_step (est : Image → ℚ × ℚ → ℚ) (fwhm : ℚ) (img : Image)
    (s : ℚ × ℚ) : Image :=
  let b := est img s
  ⟨img.hgt, img.wid, fun r c =>
    if 0 ≤ r ∧ r < (img.hgt : ℤ) ∧ 0 ≤ c ∧ c < (img.wid : ℤ) ∧
        inWindowB fwhm s r c
    then img.pix r c - b else img.pix r c⟩

/-- The Local Background Subtractor (`bkg_sub`): a deep copy of the input,
then one sequential `bkg_step` per star in table order. -/
def bkg_sub (est : Image → ℚ × ℚ → ℚ) (image : Image)
    (stars_tbl : List (ℚ × ℚ)) (fwhm : ℚ) : Image :=
  stars_tbl.foldl (bkg_step est fwhm) image

/-- The background scalar each star's pass subtracts, in table order:
the external estimate taken on the working image at that star's turn. -/
def seqBkgs (est : Image → ℚ × ℚ → ℚ) (fwhm : ℚ) :
    Image → List (ℚ × ℚ) → List ((ℚ × ℚ) × ℚ)
  | _, [] => []
  | img, s :: rest =>
      (s, est img s) :: seqBkgs est fwhm (bkg_step est fwhm img s) rest

/-- Modelled from the spec: the Local Background Subtractor as the
specification words it — inside a window the original value is "entirely
replaced" by (value − background), and on overlapping windows "later
stars in iteration order win" (last-writer-wins, not additive); the
scalar is the external estimate on the input image. -/
def bkg_sub_lww (est : Image → ℚ × ℚ → ℚ) (image : Image)
    (stars_tbl : List (ℚ × ℚ)) (fwhm : ℚ) : Image :=
  ⟨image.hgt, image.wid, fun r c =>
    if 0 ≤ r ∧ r < (image.hgt : ℤ) ∧ 0 ≤ c ∧ c < (image.wid : ℤ) then
      match (stars_tbl.filter (fun s => inWindowB fwhm s r c)).getLast? with
      | some s => image.pix r c - est image s
      | none => image.pix r c
    else image.pix r c⟩

/-- Rational stand-in for the float64 value of astropy's
`gaussian_sigma_to_fwhm` (2*sqrt(2*ln 2) ≈ 2.3548200450309493). -/
def gaussianSigmaToFwhm : ℚ := 23548200450309493 / 10000000000000000

/-- Interior search region of `find_fwhm`: `image[100:-100, 100:-100]`,
positions in row-major order. -/
def interiorPositions (im : Image) : List (ℤ × ℤ) :=
  (List.range (im.hgt - 200)).flatMap (fun i =>
    (List.range (im.wid - 200)).map (fun j =>
      (((100 + i : ℕ) : ℤ), ((100 + j : ℕ) : ℤ))))

/-- Maximum of a list of rationals, `none` on the empty list (where
`np.max` raises). -/
def npMax : List ℚ → Option ℚ
  | [] => none
  | x :: xs => some (xs.foldl max x)

/-- `np.max` over the interior region. -/
def interiorMax (im : Image) : Option ℚ :=
  npMax ((interiorPositions im).map (fun p => im.pix p.1 p.2))

/-- First row-major interior position whose pixel equals `m`
(`np.where(search_image == max_peak)[0][0], [1][0]`). -/
def argmaxFirst (im : Image) (m : ℚ) : Option (ℤ × ℤ) :=
  (interiorPositions im).find? (fun p => decide (im.pix p.1 p.2 = m))

/-- Zero the `[r-100:r+100, c-100:c+100]` cutout — in place in the
source (`image[...] = 0`), destructively masking the rejected peak. -/
def zeroCutout (im : Image) (r c : ℤ) : Image :=
  ⟨im.hgt, im.wid, fun rr cc =>
    if r - 100 ≤ rr ∧ rr < r + 100 ∧ c - 100 ≤ cc ∧ cc < c + 100 then 0
    else im.pix rr cc⟩

/-- The 200×200 cutout `image[r-size:r+size, c-size:c+size]` (size 100)
handed to the Gaussian fitter; always fully inside the image because the
peak lies in the 100-px-margin interior. -/
def subImage (im : Image) (r0 c0 : ℤ) : Image :=
  ⟨200, 200, fun r c => im.pix (r0 + r) (c0 + c)⟩

/-- Type of the external Gaussian-fit collaborator (scipy `curve_fit` on
the cutout, initial guess built from the sigma-clipped median passed as
the second argument): returns the fitted `im_sig = np.mean(popt[2:4])`,
or `none` when the fit raises. -/
abbrev FitOracle := Image → ℚ → Option ℚ

/-- One candidate's fit outcome inside the loop: `none` when the peak is
saturated (at or above 50000), when scipy's fit raises, or when the
derived width is implausible (fwhm at most 2 px) — all of which zero the
cutout and rescan; `some (fwhm, im_sig)` when the fitted width passes the
`fwhm > 2` plausibility test and ends the loop. -/
def fwhm_attempt (fit : FitOracle) (med maxPeak : ℚ) (img : Image)
    (r c : ℤ) : Option (ℚ × ℚ) :=
  if maxPeak < 50000 then
    match fit (subImage img (r - 100) (c - 100)) med with
    | some imSig =>
        if 2 < imSig * gaussianSigmaToFwhm
        then some (imSig * gaussianSigmaToFwhm, imSig) else none
    | none => none
  else none

/-- The mutate-and-rescan loop of `find_fwhm`, with the loop counter
(`count`, incremented at the top of EVERY iteration) and the current
interior maximum as explicit state, and structural fuel (`none` = fuel
exhausted; fuel 101 is proved sufficient).  A candidate peak either ends
the loop (fit succeeded with fwhm > 2), or — saturated, failed fit, or
implausible width alike — has its cutout zeroed before the budget
(`count > 100`) and noise-floor (`max < 1000`) exit checks run.
A negative initial maximum skips the `while` body and returns unbound
locals (NameError, modelled as the error value). -/
def fwhm_loop (fit : FitOracle) (med : ℚ) : Image → ℕ → ℚ → ℕ →
    Option (Except Unit ((ℚ × ℚ) × Image))
  | _, _, _, 0 => none
  | img, count, maxPeak, fuel + 1 =>
    if maxPeak < 0 then some (.error ())
    else
      match argmaxFirst img maxPeak with
      | none => some (.error ())
      | some (r, c) =>
        match fwhm_attempt fit med maxPeak img r c with
        | some fs => some (.ok (fs, img))
        | none =>
          match interiorMax (zeroCutout img r c) with
          | none => some (.error ())
          | some m' =>
            if 100 < count + 1 then some (.ok ((0, 0), zeroCutout img r c))
            else if m' < 1000 then some (.ok ((0, 0), zeroCutout img r c))
            else fwhm_loop fit med (zeroCutout img r c) (count + 1) m' fuel

/-- Modelled from the spec: the same loop as the specification words it —
a saturated peak is zeroed and the scan continues "without counting it as
an attempt", so the counter advances only on unsaturated candidates. -/
def fwhm_loop_spec (fit : FitOracle) (med : ℚ) : Image → ℕ → ℚ → ℕ →
    Option (Except Unit ((ℚ × ℚ) × Image))
  | _, _, _, 0 => none
  | img, count, maxPeak, fuel + 1 =>
    if maxPeak < 0 then some (.error ())
    else
      match argmaxFirst img maxPeak with
      | none => some (.error ())
      | some (r, c) =>
        match fwhm_attempt fit med maxPeak img r c with
        | some fs => some (.ok (fs, img))
        | none =>
          match interiorMax (zeroCutout img r c) with
          | none => some (.error ())
          | some m' =>
            if 100 < (if maxPeak < 50000 then count + 1 else count) then
              some (.ok ((0, 0), zeroCutout img r c))
            else if m' < 1000 then some (.ok ((0, 0), zeroCutout img r c))
            else fwhm_loop_spec fit med (zeroCutout img r c)
              (if maxPeak < 50000 then count + 1 else count) m' fuel

/-- The FWHM Estimator (`find_fwhm`, at the default cutout half-size
100): sigma-clipped statistics (external, `stats`; only the median is
consumed, as the fitter's initial guess), then the mutate-and-rescan
loop started at count 0 on the interior maximum (`np.max` of an empty
interior raises). -/
def find_fwhm (fit : FitOracle) (stats : Image → ℚ) (image : Image) :
    Option (Except Unit ((ℚ × ℚ) × Image)) :=
  match interiorMax image with
  | none => some (.error ())
  | some m => fwhm_loop fit (stats image) image 0 m 101

theorem emod_shift_cancel (a b H : ℤ) (h0 : 0 ≤ a) (hH : a < H) :
    (((a + b) % H) - b) % H = a := by
  have h1 : (((a + b) % H) - b) % H = ((a + b) - b) % H := by
    rw [Int.sub_emod, Int.emod_emod_of_dvd _ dvd_rfl, ← Int.sub_emod]
  rw [h1, add_sub_cancel_right]
  exact Int.emod_eq_of_lt h0 hH

/-- C9: applying the Frame Shifter's circular translation by (dy, dx) and
then by (-dy, -dx) returns an image equal to the original at every
in-grid pixel — the wrap-around roll is exactly invertible for integer
shifts. -/
theorem c9_np_roll_inverse (im : Image) (dy dx : ℤ) :
    sameOnGrid (np_roll (np_roll im dy dx) (-dy) (-dx)) im := by
  refine ⟨rfl, rfl, ?_⟩
  intro r c hr0 hrH hc0 hcW
  show im.pix ((((r - -dy) % (im.hgt : ℤ)) - dy) % (im.hgt : ℤ))
      ((((c - -dx) % (im.wid : ℤ)) - dx) % (im.wid : ℤ)) = im.pix r c
  rw [sub_neg_eq_add, sub_neg_eq_add,
    emod_shift_cancel r dy (im.hgt : ℤ) hr0 hrH,
    emod_shift_cancel c dx (im.wid : ℤ) hc0 hcW]

theorem np_median_eq_none_of_mem {l : List RVal} (h : none ∈ l) :
    np_median l = none := by
  unfold np_median
  rw [if_pos]
  exact List.any_eq_true.mpr ⟨none, h, rfl⟩

/-- The C2 claim as stated: on any shift table with at least one valid
(fully non-NaN) record, `roll_image` behaves like the valid-records-only
median rule `roll_image_validspec`. -/
def c2_claim_prop : Prop :=
  ∀ (img : Image) (diff : List ShiftRow),
    (∃ row ∈ diff, row.1.isSome ∧ row.2.1.isSome ∧ row.2.2.isSome) →
    ∃ res, roll_image img diff (1 / 2) = .ok res ∧
      sameOnGrid res (roll_image_validspec img diff (1 / 2))

/-- Concrete 2×2 image for the C2 counterexample. -/
def img2x2 : Image :=
  ⟨2, 2, fun r c =>
    if r = 0 ∧ c = 0 then 1 else if r = 0 ∧ c = 1 then 2
    else if r = 1 ∧ c = 0 then 3 else 4⟩

/-- One valid record (distance 5, dx 1, dy 1) plus one unmatched
sentinel row. -/
def diffC2 : List ShiftRow := [(some 5, some 1, some 1), (none, none, none)]

/-- C2 counterexample: with one valid record (median valid distance 5 ≥
0.5, so the spec rule rolls by (1, 1)) and one NaN sentinel,
`roll_image` takes the median over ALL rows, gets NaN, fails the
`>= threshold` test and returns the image unmodified — differing from
the claim at pixel (0, 0). -/
theorem c2_counterexample : ¬ c2_claim_prop := by
  intro h
  obtain ⟨res, hres, hsame⟩ := h img2x2 diffC2
    ⟨(some 5, some 1, some 1), by simp [diffC2], by simp, by simp, by simp⟩
  have hcode : roll_image img2x2 diffC2 (1 / 2) = .ok img2x2 := by rfl
  rw [hcode] at hres
  have hres2 : res = img2x2 := by
    injection hres with h'
    exact h'.symm
  subst hres2
  have hpix := hsame.2.2 0 0 (by decide) (by decide) (by decide) (by decide)
  have hspec : (roll_image_validspec img2x2 diffC2 (1 / 2)).pix 0 0 = 4 := by
    decide!
  rw [hspec] at hpix
  have himg : img2x2.pix 0 0 = 1 := by decide!
  rw [himg] at hpix
  exact absurd hpix (by norm_num)

/-- C2 (amended): the Frame Shifter's threshold test is the plain median
over ALL records, sentinels included; any NaN sentinel makes that median
NaN, which fails the `>= threshold` test, so the image is returned
unmodified.  Only when the median (of the whole first column) is defined
and reaches the threshold does it roll by the rounded medians of the dy
and dx columns. -/
theorem c2_roll_image_amended (img : Image) (diff : List ShiftRow) :
    ((∃ row ∈ diff, row.1 = none) → roll_image img diff (1 / 2) = .ok img) ∧
    (np_median (diff.map (fun r => r.1)) = none →
      roll_image img diff (1 / 2) = .ok img) ∧
    (∀ o, np_median (diff.map (fun r => r.1)) = some o → o < 1 / 2 →
      roll_image img diff (1 / 2) = .ok img) ∧
    (∀ o xs ys, np_median (diff.map (fun r => r.1)) = some o → 1 / 2 ≤ o →
      np_median (diff.map (fun r => r.2.1)) = some xs →
      np_median (diff.map (fun r => r.2.2)) = some ys →
      roll_image img diff (1 / 2) =
        .ok (np_roll img (np_round ys) (np_round xs))) := by
  refine ⟨?_, ?_, ?_, ?_⟩
  · rintro ⟨row, hmem, hnan⟩
    have hmed : np_median (diff.map (fun r => r.1)) = none := by
      apply np_median_eq_none_of_mem
      rw [← hnan]
      exact List.mem_map_of_mem _ hmem
    unfold roll_image
    rw [hmed]
    rfl
  · intro hmed
    unfold roll_image
    rw [hmed]
    rfl
  · intro o hmed ho
    have hf : rge (some o) (1 / 2) = false := decide_eq_false (not_le.mpr ho)
    unfold roll_image
    rw [hmed, hf]
    rfl
  · intro o xs ys hmed ho hxs hys
    have ht : rge (some o) (1 / 2) = true := decide_eq_true ho
    unfold roll_image
    rw [hmed, hxs, hys, ht]
    rfl

/-- C2 witness: the amended theorem applied at concrete inputs — a table
that is a single sentinel row leaves the image unmodified; an all-valid
table with median distance 5 rolls by the rounded medians. -/
theorem c2_witness :
    roll_image img2x2 [(none, none, none)] (1 / 2) = .ok img2x2 ∧
    roll_image img2x2 [(some 5, some 1, some 1)] (1 / 2) =
      .ok (np_roll img2x2 (np_round 1) (np_round 1)) := by
  constructor
  · exact (c2_roll_image_amended img2x2 [(none, none, none)]).1
      ⟨(none, none, none), by simp, rfl⟩
  · exact (c2_roll_image_amended img2x2 [(some 5, some 1, some 1)]).2.2.2 5 1 1
      (by decide!) (by norm_num) (by decide!) (by decide!)

/-- First frame for the C1 evidence (1×1, so the detectors below can tell
the frames apart by shape). -/
def frame1 : Image := ⟨1, 1, fun _ _ => 0⟩

/-- Second frame for the C1 evidence (2×2). -/
def frame2 : Image := ⟨2, 2, fun _ _ => 0⟩

/-- A one-star detection table. -/
def tblC1 : StarTable := [⟨1, 300, 300, 100, 2000⟩]

/-- Star Detector stub: no detection on the 1×1 reference frame, one star
on every other frame. -/
def detectA : Image → Option StarTable :=
  fun im => if im.hgt = 1 then none else some tblC1

/-- Star Detector stub: one star on the 1×1 reference frame, no detection
on every other frame. -/
def detectB : Image → Option StarTable :=
  fun im => if im.hgt = 1 then some tblC1 else none

/-- Stack Combiner stub (never reached on the C1 inputs). -/
def combineC1 : List Image → Image := fun _ => frame1

/-- C1: the null short-circuit of `image_combiner` tests the LAST frame's
detection, not the reference frame's.  With frame 0 undetected and the
last frame detected, the claim demands a null result but the code
proceeds and crashes subscripting `None` (left evidence); with frame 0
detected and the last frame undetected, the claim demands a full
registration run but the code returns the null image (right evidence). -/
theorem c1_last_frame_short_circuit :
    image_combiner detectA combineC1 [frame1, frame2] = .error () ∧
    image_combiner detectB combineC1 [frame1, frame2] = .ok none := by
  exact ⟨rfl, rfl⟩

/-- Modelled from the spec: the Star Matcher row with the documented
deterministic tie-break — ties "resolve to whichever the underlying
minimum-selection returns first (lowest target index)". -/
def shiftRow_firstmin_spec (s1 : StarRec) (stars2 : StarTable) : ShiftRow :=
  let ds := stars2.map (fun s2 => starD2 s1 s2)
  match npMin ds with
  | none => (none, none, none)
  | some m =>
    match (List.range ds.length).find? (fun j => decide (ds.getD j 0 = m)) with
    | some j =>
        if m < 400 then
          (some m, some (s1.x - (stars2.getD j default).x),
            some (s1.y - (stars2.getD j default).y))
        else (none, none, none)
    | none => (none, none, none)

theorem eq_error_of_isOk_false {β : Type} {e : Except Unit β}
    (h : e.isOk = false) : e = .error () := by
  cases e with
  | error u => cases u; rfl
  | ok b => simp [Except.isOk, Except.toBool] at h

/-- The C8 claim as stated: `calculate_shift` always succeeds and matches
the lowest-target-index tie-break rule row by row. -/
def c8_claim_prop : Prop :=
  ∀ stars1 stars2 : StarTable,
    calculate_shift stars1 stars2 =
      .ok (stars1.map (fun s1 => shiftRow_firstmin_spec s1 stars2))

/-- Reference table for the C8 counterexample: one star at the origin. -/
def t1C8 : StarTable := [⟨1, 0, 0, 100, 1000⟩]

/-- Target table for the C8 counterexample: two stars at distance 1 on
either side of the reference star — an exact tie. -/
def t2C8 : StarTable := [⟨1, 1, 0, 90, 900⟩, ⟨2, -1, 0, 90, 900⟩]

/-- C8 counterexample: on an exact tie under the tolerance the source
raises ("the truth value of an array with more than one element is
ambiguous") instead of recording the first-index match the claim
describes. -/
theorem c8_counterexample : ¬ c8_claim_prop := by
  intro h
  have h2 := h t1C8 t2C8
  have hcode : calculate_shift t1C8 t2C8 = .error () :=
    eq_error_of_isOk_false (by decide!)
  rw [hcode] at h2
  exact Except.noConfusion h2

theorem mapE_error_of_mem {α β : Type} (f : α → Except Unit β) :
    ∀ l : List α, (∃ x ∈ l, f x = .error ()) → mapE f l = .error () := by
  intro l
  induction l with
  | nil =>
    rintro ⟨x, hx, _⟩
    exact absurd hx (List.not_mem_nil x)
  | cons a t ih =>
    rintro ⟨x, hx, hfx⟩
    rcases List.mem_cons.mp hx with rfl | hx'
    · simp [mapE, hfx]
    · cases hfa : f a with
      | error e =>
        cases e
        simp [mapE, hfa]
      | ok b =>
        simp [mapE, hfa, ih ⟨x, hx', hfx⟩]

theorem mapE_ok_of_forall {α β : Type} (f : α → Except Unit β) (g : α → β) :
    ∀ l : List α, (∀ x ∈ l, f x = .ok (g x)) → mapE f l = .ok (l.map g) := by
  intro l
  induction l with
  | nil => intro _; rfl
  | cons a t ih =>
    intro h
    have ht := ih (fun x hx => h x (List.mem_cons_of_mem a hx))
    simp [mapE, h a (List.mem_cons_self a t), ht]

instance {ε α : Type} [DecidableEq ε] [DecidableEq α] : DecidableEq (Except ε α)
  | .error e, .error e' =>
    if h : e = e' then .isTrue (congrArg Except.error h)
    else .isFalse (fun hc => h (Except.error.inj hc))
  | .ok x, .ok y =>
    if h : x = y then .isTrue (congrArg Except.ok h)
    else .isFalse (fun hc => h (Except.ok.inj hc))
  | .error _, .ok _ => .isFalse (fun hc => Except.noConfusion hc)
  | .ok _, .error _ => .isFalse (fun hc => Except.noConfusion hc)

/-- C8 (amended): ties raise — whenever some reference star has two or
more target positions attaining its minimum squared distance, the Star
Matcher raises numpy's ambiguous-truth-value error (no row is recorded,
whatever the tolerance), rather than resolving the tie. -/
theorem c8_amended_ties_raise (stars1 stars2 : StarTable) (s1 : StarRec)
    (hmem : s1 ∈ stars1) (m : ℚ)
    (hm : npMin (stars2.map (fun s2 => starD2 s1 s2)) = some m)
    (hties : 2 ≤ ((List.range stars2.length).filter (fun j =>
      decide ((stars2.map (fun s2 => starD2 s1 s2)).getD j 0 = m))).length) :
    calculate_shift stars1 stars2 = .error () := by
  apply mapE_error_of_mem
  refine ⟨s1, hmem, ?_⟩
  simp only [shiftRow, List.length_map, hm]
  rcases hfl : (List.range stars2.length).filter (fun j =>
      decide ((stars2.map (fun s2 => starD2 s1 s2)).getD j 0 = m)) with
    _ | ⟨j, _ | ⟨k, rest⟩⟩
  · rfl
  · rw [hfl] at hties
    simp at hties
  · rfl

/-- C8 witness: the amended theorem applied to the concrete tie — a
reference star at the origin, two targets at distance 1 on either side. -/
theorem c8_witness : calculate_shift t1C8 t2C8 = .error () := by
  exact c8_amended_ties_raise t1C8 t2C8 ⟨1, 0, 0, 100, 1000⟩ (by decide!) 1
    (by decide!) (by decide!)

theorem getD_map_of_lt {α β : Type} (f : α → β) :
    ∀ (l : List α) (j : ℕ), j < l.length → ∀ (d : β) (d' : α),
      (l.map f).getD j d = f (l.getD j d') := by
  intro l
  induction l with
  | nil => intro j h; simp at h
  | cons a t ih =>
    intro j h d d'
    cases j with
    | zero => rfl
    | succ n =>
      simp only [List.map_cons, List.getD_cons_succ]
      exact ih n (Nat.lt_of_succ_lt_succ h) d d'

theorem getD_mem_of_lt {α : Type} :
    ∀ (l : List α) (j : ℕ), j < l.length → ∀ d : α, l.getD j d ∈ l := by
  intro l
  induction l with
  | nil => intro j h; simp at h
  | cons a t ih =>
    intro j h d
    cases j with
    | zero => exact List.mem_cons_self _ _
    | succ n => exact List.mem_cons_of_mem _ (ih n (Nat.lt_of_succ_lt_succ h) d)

theorem exists_getD_of_mem {α : Type} {x : α} :
    ∀ {l : List α}, x ∈ l → ∀ d, ∃ j, j < l.length ∧ l.getD j d = x := by
  intro l
  induction l with
  | nil => intro h; exact absurd h (List.not_mem_nil x)
  | cons a t ih =>
    intro h d
    rcases List.mem_cons.mp h with rfl | h'
    · exact ⟨0, Nat.succ_pos _, rfl⟩
    · obtain ⟨j, hj, hg⟩ := ih h' d
      exact ⟨j + 1, Nat.succ_lt_succ hj, hg⟩

theorem find?_eq_head_filter {α : Type} (p : α → Bool) :
    ∀ l : List α, l.find? p = (l.filter p).head? := by
  intro l
  induction l with
  | nil => rfl
  | cons a t ih =>
    by_cases h : p a
    · rw [List.find?_cons_of_pos _ h, List.filter_cons_of_pos h]
      rfl
    · rw [List.find?_cons_of_neg _ (by simpa using h),
        List.filter_cons_of_neg (by simpa using h), ih]

/-- Tie-free analysis of one Star Matcher row: the filter of minimum
positions is a singleton. -/
theorem shiftRow_unique_min (s1 : StarRec) (stars2 : StarTable)
    (hne : stars2 ≠ [])
    (hu : ∀ j < stars2.length, ∀ k < stars2.length,
      starD2 s1 (stars2.getD j default) = starD2 s1 (stars2.getD k default) →
      (∀ i < stars2.length, starD2 s1 (stars2.getD j default) ≤
        starD2 s1 (stars2.getD i default)) →
      j = k) :
    ∃ m j0, npMin (stars2.map (fun s2 => starD2 s1 s2)) = some m ∧
      (List.range stars2.length).filter (fun j =>
        decide ((stars2.map (fun s2 => starD2 s1 s2)).getD j 0 = m)) = [j0] ∧
      j0 < stars2.length ∧ starD2 s1 (stars2.getD j0 default) = m ∧
      (∀ i < stars2.length, m ≤ starD2 s1 (stars2.getD i default)) := by
  obtain ⟨b, t, rfl⟩ : ∃ b t, stars2 = b :: t := by
    cases stars2 with
    | nil => exact absurd rfl hne
    | cons b t => exact ⟨b, t, rfl⟩
  set s2l := b :: t with hs2l
  set ds := s2l.map (fun s2 => starD2 s1 s2) with hds
  obtain ⟨m, hm⟩ : ∃ m, npMin ds = some m := ⟨_, rfl⟩
  have hlen : ds.length = s2l.length := List.length_map _ _
  have hval : ∀ j, j < s2l.length → ds.getD j 0 = starD2 s1 (s2l.getD j default) :=
    fun j hj => getD_map_of_lt _ s2l j hj 0 default
  have hminle : ∀ i, i < s2l.length → m ≤ starD2 s1 (s2l.getD i default) := by
    intro i hi
    rw [← hval i hi]
    exact npMin_le hm _ (getD_mem_of_lt ds i (by rw [hlen]; exact hi) 0)
  set F := (List.range s2l.length).filter (fun j => decide (ds.getD j 0 = m))
    with hF
  have hmemF : ∀ j, j ∈ F → j < s2l.length ∧ starD2 s1 (s2l.getD j default) = m := by
    intro j hj
    rw [hF, List.mem_filter, List.mem_range] at hj
    refine ⟨hj.1, ?_⟩
    rw [← hval j hj.1]
    exact of_decide_eq_true hj.2
  have heq : ∀ j ∈ F, ∀ k ∈ F, j = k := by
    intro j hj k hk
    obtain ⟨hjl, hjv⟩ := hmemF j hj
    obtain ⟨hkl, hkv⟩ := hmemF k hk
    refine hu j hjl k hkl (by rw [hjv, hkv]) ?_
    intro i hi
    rw [hjv]
    exact hminle i hi
  have hne' : F ≠ [] := by
    have hmmem : m ∈ ds := npMin_mem hm
    obtain ⟨j, hj, hgj⟩ := exists_getD_of_mem hmmem 0
    have : j ∈ F := by
      rw [hF, List.mem_filter, List.mem_range]
      exact ⟨by rw [← hlen]; exact hj, decide_eq_true hgj⟩
    intro hcon
    rw [hcon] at this
    exact absurd this (List.not_mem_nil j)
  have hnodup : F.Nodup := List.Nodup.filter _ (List.nodup_range _)
  obtain ⟨j0, rest, hF0⟩ : ∃ j0 rest, F = j0 :: rest := by
    cases hc : F with
    | nil => exact absurd hc hne'
    | cons j0 rest => exact ⟨j0, rest, rfl⟩
  have hrest : rest = [] := by
    cases hr : rest with
    | nil => rfl
    | cons k rest' =>
      rw [hr] at hF0
      have hj0 : j0 ∈ F := by rw [hF0]; exact List.mem_cons_self _ _
      have hk : k ∈ F := by
        rw [hF0]
        exact List.mem_cons_of_mem _ (List.mem_cons_self _ _)
      have : j0 = k := heq j0 hj0 k hk
      rw [hF0] at hnodup
      rcases List.nodup_cons.mp hnodup with ⟨hnin, _⟩
      exact absurd (this ▸ List.mem_cons_self k rest') hnin
  rw [hrest] at hF0
  have hj0mem : j0 ∈ F := by rw [hF0]; exact List.mem_cons_self _ _
  obtain ⟨hj0l, hj0v⟩ := hmemF j0 hj0mem
  exact ⟨m, j0, hm, hF0, hj0l, hj0v, hminle⟩

theorem sqrt_lt_20_iff (q : ℚ) : Real.sqrt (q : ℝ) < 20 ↔ q < 400 := by
  rw [Real.sqrt_lt' (by norm_num)]
  rw [show ((20 : ℝ) ^ 2) = ((400 : ℚ) : ℝ) by norm_num, Rat.cast_lt]

theorem shiftRow_eval (s1 : StarRec) (stars2 : StarTable) {m : ℚ} {j0 : ℕ}
    (hm : npMin (stars2.map (fun s2 => starD2 s1 s2)) = some m)
    (hFeq : (List.range stars2.length).filter (fun j =>
      decide ((stars2.map (fun s2 => starD2 s1 s2)).getD j 0 = m)) = [j0]) :
    shiftRow s1 stars2 =
      if m < 400 then
        .ok (some m, some ((stars2.map (fun s2 => s1.x - s2.x)).getD j0 0),
          some ((stars2.map (fun s2 => s1.y - s2.y)).getD j0 0))
      else .ok (none, none, none) := by
  simp only [shiftRow, List.length_map, hm, hFeq]

theorem firstmin_spec_eval (s1 : StarRec) (stars2 : StarTable) {m : ℚ} {j0 : ℕ}
    (hm : npMin (stars2.map (fun s2 => starD2 s1 s2)) = some m)
    (hFeq : (List.range stars2.length).filter (fun j =>
      decide ((stars2.map (fun s2 => starD2 s1 s2)).getD j 0 = m)) = [j0]) :
    shiftRow_firstmin_spec s1 stars2 =
      if m < 400 then
        (some m, some (s1.x - (stars2.getD j0 default).x),
          some (s1.y - (stars2.getD j0 default).y))
      else (none, none, none) := by
  simp only [shiftRow_firstmin_spec, List.length_map, hm, find?_eq_head_filter,
    hFeq, List.head?_cons]

/-- Under a unique minimum, one Star Matcher row succeeds and equals the
first-minimum rule. -/
theorem shiftRow_ok_of_unique (s1 : StarRec) (stars2 : StarTable)
    (hne : stars2 ≠ [])
    (hu : ∀ j < stars2.length, ∀ k < stars2.length,
      starD2 s1 (stars2.getD j default) = starD2 s1 (stars2.getD k default) →
      (∀ i < stars2.length, starD2 s1 (stars2.getD j default) ≤
        starD2 s1 (stars2.getD i default)) →
      j = k) :
    shiftRow s1 stars2 = .ok (shiftRow_firstmin_spec s1 stars2) := by
  obtain ⟨m, j0, hm, hFeq, hj0l, hj0v, hmin⟩ := shiftRow_unique_min s1 stars2 hne hu
  rw [shiftRow_eval s1 stars2 hm hFeq, firstmin_spec_eval s1 stars2 hm hFeq]
  have hdx : (stars2.map (fun s2 => s1.x - s2.x)).getD j0 0 =
      s1.x - (stars2.getD j0 default).x := getD_map_of_lt _ stars2 j0 hj0l 0 default
  have hdy : (stars2.map (fun s2 => s1.y - s2.y)).getD j0 0 =
      s1.y - (stars2.getD j0 default).y := getD_map_of_lt _ stars2 j0 hj0l 0 default
  by_cases hlt : m < 400
  · rw [if_pos hlt, if_pos hlt, hdx, hdy]
  · rw [if_neg hlt, if_neg hlt]

/-- C6: for a nonempty target table with no ties, the Star Matcher
returns exactly one row per reference star, in reference order; row `i`
names a nearest target star `j` and carries (squared distance, dx, dy)
with dx/dy reference-minus-target when the minimum distance is strictly
under 20 px, and the all-NaN sentinel otherwise; and on the spec's
scenario (reference (50,50), target (53,54)) it yields squared distance
25 — true distance 5.0 — with dx = -3, dy = -4. -/
theorem c6_star_matcher (stars1 stars2 : StarTable) (hne : stars2 ≠ [])
    (hu : ∀ s1 ∈ stars1, ∀ j < stars2.length, ∀ k < stars2.length,
      starD2 s1 (stars2.getD j default) = starD2 s1 (stars2.getD k default) →
      (∀ i < stars2.length, starD2 s1 (stars2.getD j default) ≤
        starD2 s1 (stars2.getD i default)) →
      j = k) :
    (∃ rows, calculate_shift stars1 stars2 = .ok rows ∧
      rows.length = stars1.length ∧
      ∀ i < stars1.length, ∃ j, j < stars2.length ∧
        (∀ k < stars2.length,
          starD2 (stars1.getD i default) (stars2.getD j default) ≤
          starD2 (stars1.getD i default) (stars2.getD k default)) ∧
        (Real.sqrt ((starD2 (stars1.getD i default) (stars2.getD j default) : ℚ) : ℝ) < 20 →
          rows.getD i (none, none, none) =
            (some (starD2 (stars1.getD i default) (stars2.getD j default)),
             some ((stars1.getD i default).x - (stars2.getD j default).x),
             some ((stars1.getD i default).y - (stars2.getD j default).y))) ∧
        (20 ≤ Real.sqrt ((starD2 (stars1.getD i default) (stars2.getD j default) : ℚ) : ℝ) →
          rows.getD i (none, none, none) = (none, none, none))) ∧
    (calculate_shift [⟨1, 50, 50, 100, 1000⟩] [⟨2, 53, 54, 90, 900⟩] =
        .ok [(some 25, some (-3), some (-4))] ∧
      Real.sqrt ((25 : ℚ) : ℝ) = 5) := by
  refine ⟨⟨stars1.map (fun s1 => shiftRow_firstmin_spec s1 stars2), ?_, ?_, ?_⟩,
    ?_, ?_⟩
  · exact mapE_ok_of_forall _ _ stars1
      (fun s1 hs1 => shiftRow_ok_of_unique s1 stars2 hne (hu s1 hs1))
  · exact List.length_map _ _
  · intro i hi
    obtain ⟨m, j0, hm, hFeq, hj0l, hj0v, hmin⟩ :=
      shiftRow_unique_min (stars1.getD i default) stars2 hne
        (hu _ (getD_mem_of_lt stars1 i hi default))
    have hrow : (stars1.map (fun s1 => shiftRow_firstmin_spec s1 stars2)).getD i
        (none, none, none) = shiftRow_firstmin_spec (stars1.getD i default) stars2 :=
      getD_map_of_lt _ stars1 i hi (none, none, none) default
    refine ⟨j0, hj0l, ?_, ?_, ?_⟩
    · intro k hk
      rw [hj0v]
      exact hmin k hk
    · intro hs
      have hlt : m < 400 := by
        rw [← hj0v]
        exact (sqrt_lt_20_iff _).mp (by rw [hj0v]; rw [hj0v] at hs; exact hs)
      rw [hrow, firstmin_spec_eval _ stars2 hm hFeq, if_pos hlt, hj0v]
    · intro hs
      have hge : ¬ m < 400 := by
        rw [← hj0v]
        intro hcon
        exact absurd ((sqrt_lt_20_iff _).mpr hcon) (not_lt.mpr (hj0v ▸ hs))
      rw [hrow, firstmin_spec_eval _ stars2 hm hFeq, if_neg hge]
  · decide!
  · rw [show ((25 : ℚ) : ℝ) = 5 ^ 2 by norm_num, Real.sqrt_sq (by norm_num)]

/-- C6 witness: the characterization applied at the spec's concrete
scenario tables. -/
theorem c6_witness :
    calculate_shift [⟨1, 50, 50, 100, 1000⟩] [⟨2, 53, 54, 90, 900⟩] =
      .ok [(some 25, some (-3), some (-4))] := by
  exact (c6_star_matcher [⟨1, 50, 50, 100, 1000⟩] [⟨2, 53, 54, 90, 900⟩]
    (by decide!) (by decide!)).2.1

/-- The C3 claim as stated: the Local Background Subtractor agrees with
the last-writer-wins rule on every input. -/
def c3_claim_prop : Prop :=
  ∀ (est : Image → ℚ × ℚ → ℚ) (image : Image) (stars : List (ℚ × ℚ))
    (fwhm : ℚ),
    sameOnGrid (bkg_sub est image stars fwhm) (bkg_sub_lww est image stars fwhm)

/-- Constant background estimator (value 1) for the C3 counterexample,
insensitive to the working image so that the only difference left between
code and claim is accumulation versus last-writer-wins. -/
def estC3 : Image → ℚ × ℚ → ℚ := fun _ _ => 1

/-- Flat 8×8 image of value 10. -/
def img8 : Image := ⟨8, 8, fun _ _ => 10⟩

/-- Two stars whose 5-px windows overlap at pixel (2, 2). -/
def tblC3 : List (ℚ × ℚ) := [(2, 2), (2, 3)]

/-- C3 counterexample: at a pixel covered by two windows the code
subtracts BOTH background estimates (10 − 1 − 1 = 8), while the claim's
last-writer-wins rule leaves 10 − 1 = 9. -/
theorem c3_counterexample : ¬ c3_claim_prop := by
  intro h
  have hpe := (h estC3 img8 tblC3 1).2.2 2 2 (by decide!) (by decide!)
    (by decide!) (by decide!)
  have h1 : (bkg_sub estC3 img8 tblC3 1).pix 2 2 = 8 := by decide!
  have h2 : (bkg_sub_lww estC3 img8 tblC3 1).pix 2 2 = 9 := by decide!
  rw [h1, h2] at hpe
  norm_num at hpe

theorem bkg_sub_dims (est : Image → ℚ × ℚ → ℚ) (fwhm : ℚ) :
    ∀ (stars : List (ℚ × ℚ)) (img : Image),
      (bkg_sub est img stars fwhm).hgt = img.hgt ∧
      (bkg_sub est img stars fwhm).wid = img.wid := by
  intro stars
  induction stars with
  | nil => intro img; exact ⟨rfl, rfl⟩
  | cons s rest ih =>
    intro img
    have h0 : bkg_sub est img (s :: rest) fwhm =
        bkg_sub est (bkg_step est fwhm img s) rest fwhm := rfl
    rw [h0]
    exact ih (bkg_step est fwhm img s)

theorem bkg_sub_pix (est : Image → ℚ × ℚ → ℚ) (fwhm : ℚ) :
    ∀ (stars : List (ℚ × ℚ)) (img : Image) (r c : ℤ),
      0 ≤ r → r < (img.hgt : ℤ) → 0 ≤ c → c < (img.wid : ℤ) →
      (bkg_sub est img stars fwhm).pix r c =
        img.pix r c - (((seqBkgs est fwhm img stars).filter
          (fun sb => inWindowB fwhm sb.1 r c)).map (fun sb => sb.2)).sum := by
  intro stars
  induction stars with
  | nil =>
    intro img r c _ _ _ _
    simp [bkg_sub, seqBkgs]
  | cons s rest ih =>
    intro img r c hr0 hr hc0 hc
    have h0 : bkg_sub est img (s :: rest) fwhm =
        bkg_sub est (bkg_step est fwhm img s) rest fwhm := rfl
    have hseq : seqBkgs est fwhm img (s :: rest) =
        (s, est img s) :: seqBkgs est fwhm (bkg_step est fwhm img s) rest := rfl
    have hih := ih (bkg_step est fwhm img s) r c hr0 hr hc0 hc
    rw [h0, hih, hseq, List.filter_cons]
    by_cases hw : inWindowB fwhm s r c
    · have hpix : (bkg_step est fwhm img s).pix r c = img.pix r c - est img s := by
        simp only [bkg_step]
        rw [if_pos ⟨hr0, hr, hc0, hc, hw⟩]
      rw [hpix]
      simp only [hw, if_pos, List.map_cons, List.sum_cons]
      ring
    · have hpix : (bkg_step est fwhm img s).pix r c = img.pix r c := by
        simp only [bkg_step]
        rw [if_neg]
        intro hcon
        exact hw hcon.2.2.2.2
      rw [hpix]
      simp only [hw]
      rw [if_neg]
      simp

/-- C3 (amended): subtraction accumulates — the output has the input's
dimensions, and every in-grid pixel equals the original value minus the
SUM of the background estimates of every star whose window covers it
(each estimate taken by the external annulus collaborator on the working
image at that star's turn, `seqBkgs`), not only the last such star's. -/
theorem c3_bkg_sub_additive (est : Image → ℚ × ℚ → ℚ) (image : Image)
    (stars : List (ℚ × ℚ)) (fwhm : ℚ) (r c : ℤ)
    (hr0 : 0 ≤ r) (hr : r < (image.hgt : ℤ))
    (hc0 : 0 ≤ c) (hc : c < (image.wid : ℤ)) :
    (bkg_sub est image stars fwhm).hgt = image.hgt ∧
    (bkg_sub est image stars fwhm).wid = image.wid ∧
    (bkg_sub est image stars fwhm).pix r c =
      image.pix r c - (((seqBkgs est fwhm image stars).filter
        (fun sb => inWindowB fwhm sb.1 r c)).map (fun sb => sb.2)).sum :=
  ⟨(bkg_sub_dims est fwhm stars image).1, (bkg_sub_dims est fwhm stars image).2,
    bkg_sub_pix est fwhm stars image r c hr0 hr hc0 hc⟩

/-- C3 witness: the amended theorem applied at the concrete overlap
scenario. -/
theorem c3_witness :
    (bkg_sub estC3 img8 tblC3 1).pix 2 2 =
      img8.pix 2 2 - (((seqBkgs estC3 1 img8 tblC3).filter
        (fun sb => inWindowB 1 sb.1 2 2)).map (fun sb => sb.2)).sum :=
  (c3_bkg_sub_additive estC3 img8 tblC3 1 2 2 (by decide!) (by decide!)
    (by decide!) (by decide!)).2.2

theorem foldl_max_ge (xs : List ℚ) : ∀ (init : ℚ), init ≤ xs.foldl max init ∧
    ∀ z ∈ xs, z ≤ xs.foldl max init := by
  induction xs with
  | nil => intro init; simp
  | cons a as ih =>
    intro init
    simp only [List.foldl_cons]
    rcases ih (max init a) with ⟨h1, h2⟩
    refine ⟨le_trans (le_max_left _ _) h1, ?_⟩
    intro z hz
    rcases List.mem_cons.mp hz with rfl | hz'
    · exact le_trans (le_max_right _ _) h1
    · exact h2 z hz'

theorem foldl_max_mem (xs : List ℚ) :
    ∀ (init : ℚ), xs.foldl max init = init ∨ xs.foldl max init ∈ xs := by
  induction xs with
  | nil => intro init; simp
  | cons a as ih =>
    intro init
    simp only [List.foldl_cons]
    rcases ih (max init a) with h1 | h1
    · rw [h1]
      rcases max_choice init a with h2 | h2
      · left; exact h2
      · right; rw [h2]; exact List.mem_cons_self _ _
    · right; exact List.mem_cons_of_mem _ h1

theorem npMax_ge {l : List ℚ} {m : ℚ} (h : npMax l = some m) :
    ∀ x ∈ l, x ≤ m := by
  match l with
  | [] => simp [npMax] at h
  | x :: xs =>
    simp only [npMax, Option.some.injEq] at h
    subst h
    intro y hy
    rcases List.mem_cons.mp hy with rfl | hy'
    · exact (foldl_max_ge xs y).1
    · exact (foldl_max_ge xs x).2 y hy'

theorem npMax_mem {l : List ℚ} {m : ℚ} (h : npMax l = some m) : m ∈ l := by
  match l with
  | [] => simp [npMax] at h
  | x :: xs =>
    simp only [npMax, Option.some.injEq] at h
    subst h
    rcases foldl_max_mem xs x with h1 | h1
    · rw [h1]; exact List.mem_cons_self _ _
    · exact List.mem_cons_of_mem _ h1

theorem npMax_isSome_of_ne_nil {l : List ℚ} (h : l ≠ []) :
    ∃ m, npMax l = some m := by
  cases l with
  | nil => exact absurd rfl h
  | cons x xs => exact ⟨_, rfl⟩

/-- Zeroing a cutout changes neither the grid dimensions nor the interior
search region. -/
theorem interiorPositions_zeroCutout (im : Image) (r c : ℤ) :
    interiorPositions (zeroCutout im r c) = interiorPositions im := rfl

theorem zeroCutout_pix_self (im : Image) (r c : ℤ) :
    (zeroCutout im r c).pix r c = 0 := by
  simp only [zeroCutout]
  rw [if_pos (by omega)]

theorem zeroCutout_preserves_zero (im : Image) (r c p q : ℤ)
    (h : im.pix p q = 0) : (zeroCutout im r c).pix p q = 0 := by
  simp only [zeroCutout]
  split
  · rfl
  · exact h

/-- The interior maximum is attained at the first row-major position the
`np.where` scan finds. -/
theorem argmax_of_interiorMax {im : Image} {m : ℚ}
    (h : interiorMax im = some m) :
    ∃ r c, argmaxFirst im m = some (r, c) ∧ (r, c) ∈ interiorPositions im ∧
      im.pix r c = m := by
  have hmem : m ∈ (interiorPositions im).map (fun p => im.pix p.1 p.2) :=
    npMax_mem h
  obtain ⟨p, hp, hpv⟩ := List.mem_map.mp hmem
  have hfind : (argmaxFirst im m).isSome := by
    rw [argmaxFirst, List.find?_isSome]
    exact ⟨p, hp, decide_eq_true hpv⟩
  obtain ⟨q, hq⟩ := Option.isSome_iff_exists.mp hfind
  refine ⟨q.1, q.2, by rw [← hq], ?_, ?_⟩
  · have := List.mem_of_find?_eq_some hq
    simpa using this
  · have := List.find?_some hq
    have h2 := of_decide_eq_true this
    simpa using h2

/-- After zeroing the cutout around an interior position, the interior
maximum is still defined and is nonnegative (the zeroed pixel itself is
in the region). -/
theorem interiorMax_after_zero {im : Image} {m : ℚ} {r c : ℤ}
    (harg : argmaxFirst im m = some (r, c)) :
    ∃ m', interiorMax (zeroCutout im r c) = some m' ∧ 0 ≤ m' := by
  have hrc : (r, c) ∈ interiorPositions im := by
    have := List.mem_of_find?_eq_some harg
    simpa using this
  have hne : interiorPositions im ≠ [] := by
    intro hcon
    rw [hcon] at hrc
    exact absurd hrc (List.not_mem_nil _)
  have hne2 : (interiorPositions (zeroCutout im r c)).map
      (fun p => (zeroCutout im r c).pix p.1 p.2) ≠ [] := by
    rw [interiorPositions_zeroCutout]
    intro hcon
    exact hne (List.map_eq_nil_iff.mp hcon)
  obtain ⟨m', hm'⟩ := npMax_isSome_of_ne_nil hne2
  refine ⟨m', hm', ?_⟩
  have hz : (zeroCutout im r c).pix r c = 0 := zeroCutout_pix_self im r c
  have hmem : (0 : ℚ) ∈ (interiorPositions (zeroCutout im r c)).map
      (fun p => (zeroCutout im r c).pix p.1 p.2) := by
    rw [interiorPositions_zeroCutout]
    exact List.mem_map.mpr ⟨(r, c), hrc, hz⟩
  exact npMax_ge hm' 0 hmem

/-- One-step unfolding of the loop at positive fuel. -/
theorem fwhm_loop_succ_eq (fit : FitOracle) (med : ℚ) (img : Image)
    (count : ℕ) (m : ℚ) (fuel : ℕ) :
    fwhm_loop fit med img count m (fuel + 1) =
      (if m < 0 then some (.error ()) else
        match argmaxFirst img m with
        | none => some (.error ())
        | some (r, c) =>
          match fwhm_attempt fit med m img r c with
          | some fs => some (.ok (fs, img))
          | none =>
            match interiorMax (zeroCutout img r c) with
            | none => some (.error ())
            | some m' =>
              if 100 < count + 1 then some (.ok ((0, 0), zeroCutout img r c))
              else if m' < 1000 then some (.ok ((0, 0), zeroCutout img r c))
              else fwhm_loop fit med (zeroCutout img r c) (count + 1) m' fuel) :=
  rfl

/-- Fuel stability: below the 101-iteration bound implied by the budget
check, one more unit of fuel does not change the loop's result. -/
theorem fwhm_loop_fuel_succ (fit : FitOracle) (med : ℚ) :
    ∀ (fuel : ℕ) (img : Image) (count : ℕ) (m : ℚ), count ≤ 100 →
      101 ≤ fuel + count →
      fwhm_loop fit med img count m fuel =
        fwhm_loop fit med img count m (fuel + 1) := by
  intro fuel
  induction fuel with
  | zero =>
    intro img count m hcount hfuel
    omega
  | succ f ih =>
    intro img count m hcount hfuel
    rw [fwhm_loop_succ_eq, fwhm_loop_succ_eq]
    by_cases h0 : m < 0
    · simp only [if_pos h0]
    · simp only [if_neg h0]
      cases harg : argmaxFirst img m with
      | none => simp only [harg]
      | some rc =>
        obtain ⟨r, c⟩ := rc
        simp only [harg]
        cases hat : fwhm_attempt fit med m img r c with
        | some fs => simp only [hat]
        | none =>
          simp only [hat]
          cases hmax : interiorMax (zeroCutout img r c) with
          | none => simp only [hmax]
          | some m2 =>
            simp only [hmax]
            by_cases hcnt : 100 < count + 1
            · simp only [if_pos hcnt]
            · simp only [if_neg hcnt]
              by_cases hnoise : m2 < 1000
              · simp only [if_pos hnoise]
              · simp only [if_neg hnoise]
                exact ih (zeroCutout img r c) (count + 1) m2 (by omega)
                  (by omega)

theorem fwhm_loop_fuel_add (fit : FitOracle) (med : ℚ) (k : ℕ) :
    ∀ (fuel : ℕ) (img : Image) (count : ℕ) (m : ℚ), count ≤ 100 →
      101 ≤ fuel + count →
      fwhm_loop fit med img count m fuel =
        fwhm_loop fit med img count m (fuel + k) := by
  induction k with
  | zero => intro fuel img count m _ _; rfl
  | succ n ih =>
    intro fuel img count m hcount hfuel
    rw [ih fuel img count m hcount hfuel, show fuel + (n + 1) = (fuel + n) + 1
      from rfl]
    exact fwhm_loop_fuel_succ fit med (fuel + n) img count m hcount (by omega)

theorem fwhm_loop_fuel_irrel (fit : FitOracle) (med : ℚ) (img : Image)
    (count : ℕ) (m : ℚ) (fuel1 fuel2 : ℕ) (hcount : count ≤ 100)
    (h1 : 101 ≤ fuel1 + count) (h2 : 101 ≤ fuel2 + count) :
    fwhm_loop fit med img count m fuel1 = fwhm_loop fit med img count m fuel2 := by
  rcases Nat.le_total fuel1 fuel2 with hle | hle
  · obtain ⟨k, rfl⟩ := Nat.exists_eq_add_of_le hle
    exact fwhm_loop_fuel_add fit med k fuel1 img count m hcount h1
  · obtain ⟨k, rfl⟩ := Nat.exists_eq_add_of_le hle
    exact (fwhm_loop_fuel_add fit med k fuel2 img count m hcount h2).symm

/-- With fuel at least `101 - count`, the loop never runs out of fuel:
every run ends through the budget check, the noise-floor check, a
successful fit, or one of the modelled error exits. -/
theorem fwhm_loop_ne_none (fit : FitOracle) (med : ℚ) :
    ∀ (fuel : ℕ) (img : Image) (count : ℕ) (m : ℚ), count ≤ 100 →
      101 ≤ fuel + count → fwhm_loop fit med img count m fuel ≠ none := by
  intro fuel
  induction fuel with
  | zero => intro img count m hcount hfuel; omega
  | succ f ih =>
    intro img count m hcount hfuel
    rw [fwhm_loop_succ_eq]
    by_cases h0 : m < 0
    · simp [if_pos h0]
    · simp only [if_neg h0]
      cases harg : argmaxFirst img m with
      | none => simp
      | some rc =>
        obtain ⟨r, c⟩ := rc
        dsimp only
        cases hat : fwhm_attempt fit med m img r c with
        | some fs => simp
        | none =>
          dsimp only
          cases hmax : interiorMax (zeroCutout img r c) with
          | none => simp
          | some m2 =>
            dsimp only
            by_cases hcnt : 100 < count + 1
            · simp [if_pos hcnt]
            · by_cases hnoise : m2 < 1000
              · simp [if_neg hcnt, if_pos hnoise]
              · simp only [if_neg hcnt, if_neg hnoise]
                exact ih (zeroCutout img r c) (count + 1) m2 (by omega) (by omega)

/-- With the loop invariant (the passed maximum really is the interior
maximum and is nonnegative) the loop always ends in a normal return. -/
theorem fwhm_loop_ok (fit : FitOracle) (med : ℚ) :
    ∀ (fuel : ℕ) (img : Image) (count : ℕ) (m : ℚ), count ≤ 100 →
      101 ≤ fuel + count → 0 ≤ m → interiorMax img = some m →
      ∃ res imgF, fwhm_loop fit med img count m fuel = some (.ok (res, imgF)) := by
  intro fuel
  induction fuel with
  | zero => intro img count m hcount hfuel _ _; omega
  | succ f ih =>
    intro img count m hcount hfuel hm0 hmax
    rw [fwhm_loop_succ_eq]
    rw [if_neg (not_lt.mpr hm0)]
    obtain ⟨r, c, harg, hrc, hpix⟩ := argmax_of_interiorMax hmax
    rw [harg]
    dsimp only
    cases hat : fwhm_attempt fit med m img r c with
    | some fs => exact ⟨fs, img, rfl⟩
    | none =>
      dsimp only
      obtain ⟨m2, hm2, hm20⟩ := interiorMax_after_zero harg
      rw [hm2]
      dsimp only
      by_cases hcnt : 100 < count + 1
      · rw [if_pos hcnt]
        exact ⟨(0, 0), zeroCutout img r c, rfl⟩
      · rw [if_neg hcnt]
        by_cases hnoise : m2 < 1000
        · rw [if_pos hnoise]
          exact ⟨(0, 0), zeroCutout img r c, rfl⟩
        · rw [if_neg hnoise]
          exact ih (zeroCutout img r c) (count + 1) m2 (by omega) (by omega)
            hm20 hm2

/-- The loop only writes zeros into the image: a pixel that is zero going
in is zero in the returned image. -/
theorem fwhm_loop_zero_persist (fit : FitOracle) (med : ℚ) :
    ∀ (fuel : ℕ) (img : Image) (count : ℕ) (m : ℚ) (res : ℚ × ℚ)
      (imgF : Image) (p q : ℤ),
      fwhm_loop fit med img count m fuel = some (.ok (res, imgF)) →
      img.pix p q = 0 → imgF.pix p q = 0 := by
  intro fuel
  induction fuel with
  | zero =>
    intro img count m res imgF p q hrun _
    have hnil : fwhm_loop fit med img count m 0 = none := rfl
    rw [hnil] at hrun
    exact Option.noConfusion hrun
  | succ f ih =>
    intro img count m res imgF p q hrun hz
    rw [fwhm_loop_succ_eq] at hrun
    by_cases h0 : m < 0
    · rw [if_pos h0] at hrun
      simp at hrun
    · rw [if_neg h0] at hrun
      cases harg : argmaxFirst img m with
      | none =>
        rw [harg] at hrun
        simp at hrun
      | some rc =>
        obtain ⟨r, c⟩ := rc
        rw [harg] at hrun
        dsimp only at hrun
        cases hat : fwhm_attempt fit med m img r c with
        | some fs =>
          rw [hat] at hrun
          dsimp only at hrun
          obtain ⟨-, h2⟩ := Prod.mk.injEq .. ▸ (Except.ok.inj (Option.some.inj hrun))
          rw [← h2]
          exact hz
        | none =>
          rw [hat] at hrun
          dsimp only at hrun
          cases hmax : interiorMax (zeroCutout img r c) with
          | none =>
            rw [hmax] at hrun
            simp at hrun
          | some m2 =>
            rw [hmax] at hrun
            dsimp only at hrun
            by_cases hcnt : 100 < count + 1
            · rw [if_pos hcnt] at hrun
              obtain ⟨-, h2⟩ := Prod.mk.injEq .. ▸ (Except.ok.inj (Option.some.inj hrun))
              rw [← h2]
              exact zeroCutout_preserves_zero img r c p q hz
            · rw [if_neg hcnt] at hrun
              by_cases hnoise : m2 < 1000
              · rw [if_pos hnoise] at hrun
                obtain ⟨-, h2⟩ := Prod.mk.injEq .. ▸ (Except.ok.inj (Option.some.inj hrun))
                rw [← h2]
                exact zeroCutout_preserves_zero img r c p q hz
              · rw [if_neg hnoise] at hrun
                exact ih (zeroCutout img r c) (count + 1) m2 res imgF p q hrun
                  (zeroCutout_preserves_zero img r c p q hz)

theorem fwhm_attempt_some {fit : FitOracle} {med maxPeak : ℚ} {img : Image}
    {r c : ℤ} {fs : ℚ × ℚ}
    (h : fwhm_attempt fit med maxPeak img r c = some fs) : 2 < fs.1 := by
  unfold fwhm_attempt at h
  by_cases hsat : maxPeak < 50000
  · rw [if_pos hsat] at h
    cases hfit : fit (subImage img (r - 100) (c - 100)) med with
    | none => rw [hfit] at h; exact Option.noConfusion h
    | some imSig =>
      rw [hfit] at h
      dsimp only at h
      by_cases hgt : 2 < imSig * gaussianSigmaToFwhm
      · rw [if_pos hgt] at h
        obtain rfl := Option.some.inj h
        exact hgt
      · rw [if_neg hgt] at h
        exact Option.noConfusion h
  · rw [if_neg hsat] at h
    exact Option.noConfusion h

/-- Every normal return of the loop carries either the (0, 0) bail-out
pair or a fitted width strictly above 2 px. -/
theorem fwhm_loop_ok_values (fit : FitOracle) (med : ℚ) :
    ∀ (fuel : ℕ) (img : Image) (count : ℕ) (m : ℚ) (res : ℚ × ℚ)
      (imgF : Image),
      fwhm_loop fit med img count m fuel = some (.ok (res, imgF)) →
      res = (0, 0) ∨ 2 < res.1 := by
  intro fuel
  induction fuel with
  | zero =>
    intro img count m res imgF hrun
    have hnil : fwhm_loop fit med img count m 0 = none := rfl
    rw [hnil] at hrun
    exact Option.noConfusion hrun
  | succ f ih =>
    intro img count m res imgF hrun
    rw [fwhm_loop_succ_eq] at hrun
    by_cases h0 : m < 0
    · rw [if_pos h0] at hrun
      simp at hrun
    · rw [if_neg h0] at hrun
      cases harg : argmaxFirst img m with
      | none =>
        rw [harg] at hrun
        simp at hrun
      | some rc =>
        obtain ⟨r, c⟩ := rc
        rw [harg] at hrun
        dsimp only at hrun
        cases hat : fwhm_attempt fit med m img r c with
        | some fs =>
          rw [hat] at hrun
          dsimp only at hrun
          obtain ⟨h1, -⟩ := Prod.mk.injEq .. ▸ (Except.ok.inj (Option.some.inj hrun))
          right
          rw [← h1]
          exact fwhm_attempt_some hat
        | none =>
          rw [hat] at hrun
          dsimp only at hrun
          cases hmax : interiorMax (zeroCutout img r c) with
          | none =>
            rw [hmax] at hrun
            simp at hrun
          | some m2 =>
            rw [hmax] at hrun
            dsimp only at hrun
            by_cases hcnt : 100 < count + 1
            · rw [if_pos hcnt] at hrun
              obtain ⟨h1, -⟩ := Prod.mk.injEq .. ▸ (Except.ok.inj (Option.some.inj hrun))
              exact Or.inl h1.symm
            · rw [if_neg hcnt] at hrun
              by_cases hnoise : m2 < 1000
              · rw [if_pos hnoise] at hrun
                obtain ⟨h1, -⟩ := Prod.mk.injEq .. ▸ (Except.ok.inj (Option.some.inj hrun))
                exact Or.inl h1.symm
              · rw [if_neg hnoise] at hrun
                exact ih (zeroCutout img r c) (count + 1) m2 res imgF hrun

/-- C10: the mutate-and-rescan loop terminates — `find_fwhm` (fuel 101)
never exhausts its fuel, because the counter advances on every iteration
(saturated peaks included) and the budget check, the noise-floor check,
or a successful fit ends the loop within 101 iterations; and the result
is independent of any fuel at least `101 - count`. -/
theorem c10_find_fwhm_terminates (fit : FitOracle) (stats : Image → ℚ)
    (img : Image) :
    find_fwhm fit stats img ≠ none ∧
    (∀ (med : ℚ) (img0 : Image) (count : ℕ) (m : ℚ) (fuel1 fuel2 : ℕ),
      count ≤ 100 → 101 ≤ fuel1 + count → 101 ≤ fuel2 + count →
      fwhm_loop fit med img0 count m fuel1 =
        fwhm_loop fit med img0 count m fuel2) := by
  constructor
  · unfold find_fwhm
    cases hmax : interiorMax img with
    | none => simp
    | some m =>
      exact fwhm_loop_ne_none fit (stats img) 101 img 0 m (by omega) (by omega)
  · intro med img0 count m fuel1 fuel2 hcount h1 h2
    exact fwhm_loop_fuel_irrel fit med img0 count m fuel1 fuel2 hcount h1 h2

/-- C10 witness: termination and fuel-independence at a concrete input. -/
theorem c10_witness :
    find_fwhm (fun _ _ => none) (fun _ => 0) img2x2 ≠ none ∧
    fwhm_loop (fun _ _ => none) 0 img2x2 0 0 101 =
      fwhm_loop (fun _ _ => none) 0 img2x2 0 0 150 :=
  ⟨(c10_find_fwhm_terminates (fun _ _ => none) (fun _ => 0) img2x2).1,
    (c10_find_fwhm_terminates (fun _ _ => none) (fun _ => 0) img2x2).2
      0 img2x2 0 0 101 150 (by norm_num) (by norm_num) (by norm_num)⟩

/-- The C4 claim as stated: `find_fwhm` leaves the caller's image
unchanged on every run that returns normally. -/
def c4_claim_prop : Prop :=
  ∀ (fit : FitOracle) (stats : Image → ℚ) (img : Image) (res : ℚ × ℚ)
    (imgF : Image),
    find_fwhm fit stats img = some (.ok (res, imgF)) → sameOnGrid imgF img

/-- Gaussian-fit collaborator that always raises. -/
def fitNone : FitOracle := fun _ _ => none

/-- Gaussian-fit collaborator that always fits width 2. -/
def fit2 : FitOracle := fun _ _ => some 2

/-- Robust-statistics collaborator returning median 0. -/
def statsZ : Image → ℚ := fun _ => 0

/-- 201×201 image whose single interior pixel is saturated. -/
def imgSat : Image :=
  ⟨201, 201, fun r c => if r = 100 ∧ c = 100 then 60000 else 0⟩

/-- 201×201 image whose single interior pixel is a fittable peak. -/
def imgGood : Image :=
  ⟨201, 201, fun r c => if r = 100 ∧ c = 100 then 30000 else 0⟩

/-- C4 (amended): `find_fwhm` mutates its input — when the first interior
maximum is saturated the returned image has the argmax pixel zeroed (the
source zeroes the cutout IN PLACE in the caller's array); the image comes
back untouched exactly on runs like the immediately-successful first fit
(second conjunct). -/
theorem c4_find_fwhm_mutation (fit : FitOracle) (stats : Image → ℚ)
    (img : Image) (m : ℚ) (r c : ℤ)
    (hmax : interiorMax img = some m) (harg : argmaxFirst img m = some (r, c)) :
    (50000 ≤ m → ∃ res imgF, find_fwhm fit stats img = some (.ok (res, imgF)) ∧
      imgF.pix r c = 0) ∧
    (∀ imSig, m < 50000 → 0 ≤ m →
      fit (subImage img (r - 100) (c - 100)) (stats img) = some imSig →
      2 < imSig * gaussianSigmaToFwhm →
      find_fwhm fit stats img =
        some (.ok ((imSig * gaussianSigmaToFwhm, imSig), img))) := by
  constructor
  · intro hsat
    unfold find_fwhm
    simp only [hmax]
    rw [show (101 : ℕ) = 100 + 1 from rfl, fwhm_loop_succ_eq]
    rw [if_neg (not_lt.mpr (le_trans (by norm_num) hsat)), harg]
    dsimp only
    have hat : fwhm_attempt fit (stats img) m img r c = none := by
      unfold fwhm_attempt
      rw [if_neg (not_lt.mpr hsat)]
    rw [hat]
    dsimp only
    obtain ⟨m2, hm2, hm20⟩ := interiorMax_after_zero harg
    rw [hm2]
    dsimp only
    rw [if_neg (by omega : ¬ (100 : ℕ) < 0 + 1)]
    by_cases hnoise : m2 < 1000
    · rw [if_pos hnoise]
      exact ⟨(0, 0), zeroCutout img r c, rfl, zeroCutout_pix_self img r c⟩
    · rw [if_neg hnoise]
      obtain ⟨res, imgF, hrun⟩ := fwhm_loop_ok fit (stats img) 100
        (zeroCutout img r c) 1 m2 (by omega) (by omega) hm20 hm2
      exact ⟨res, imgF, hrun, fwhm_loop_zero_persist fit (stats img) 100
        (zeroCutout img r c) 1 m2 res imgF r c hrun (zeroCutout_pix_self img r c)⟩
  · intro imSig hlt hm0 hfit hgt
    unfold find_fwhm
    simp only [hmax]
    rw [show (101 : ℕ) = 100 + 1 from rfl, fwhm_loop_succ_eq]
    rw [if_neg (not_lt.mpr hm0), harg]
    dsimp only
    have hat : fwhm_attempt fit (stats img) m img r c =
        some (imSig * gaussianSigmaToFwhm, imSig) := by
      unfold fwhm_attempt
      rw [if_pos hlt, hfit]
      dsimp only
      rw [if_pos hgt]
    rw [hat]

/-- C4 counterexample: on the saturated 201×201 image the normal return
of `find_fwhm` carries an image whose pixel (100, 100) was zeroed, while
the caller's image held 60000 there — the input is NOT left unchanged. -/
theorem c4_counterexample : ¬ c4_claim_prop := by
  intro h
  have hrun : find_fwhm fitNone statsZ imgSat =
      some (.ok ((0, 0), zeroCutout imgSat 100 100)) := by
    unfold find_fwhm
    simp only [(by decide! : interiorMax imgSat = some 60000)]
    rw [show (101 : ℕ) = 100 + 1 from rfl, fwhm_loop_succ_eq]
    rw [if_neg (by norm_num : ¬ (60000 : ℚ) < 0)]
    rw [(by decide! : argmaxFirst imgSat 60000 = some (100, 100))]
    dsimp only
    have hat : fwhm_attempt fitNone (statsZ imgSat) 60000 imgSat 100 100 =
        none := by
      unfold fwhm_attempt
      rw [if_neg (by norm_num : ¬ (60000 : ℚ) < 50000)]
    rw [hat]
    dsimp only
    rw [(by decide! : interiorMax (zeroCutout imgSat 100 100) = some 0)]
    dsimp only
    rw [if_neg (by omega : ¬ (100 : ℕ) < 0 + 1),
      if_pos (by norm_num : (0 : ℚ) < 1000)]
  have hsg := h fitNone statsZ imgSat (0, 0) (zeroCutout imgSat 100 100) hrun
  have hpe := hsg.2.2 100 100 (by norm_num) (by decide!) (by norm_num)
    (by decide!)
  have h1 : (zeroCutout imgSat 100 100).pix 100 100 = 0 :=
    zeroCutout_pix_self imgSat 100 100
  have h2 : imgSat.pix 100 100 = 60000 := by decide!
  rw [h1, h2] at hpe
  norm_num at hpe

/-- C4 witness: the amended theorem applied at the saturated image
(mutation) and at an immediately-fittable image (no mutation). -/
theorem c4_witness :
    (∃ res imgF, find_fwhm fitNone statsZ imgSat = some (.ok (res, imgF)) ∧
      imgF.pix 100 100 = 0) ∧
    find_fwhm fit2 statsZ imgGood =
      some (.ok ((2 * gaussianSigmaToFwhm, 2), imgGood)) :=
  ⟨(c4_find_fwhm_mutation fitNone statsZ imgSat 60000 100 100
      (by decide!) (by decide!)).1 (by norm_num),
   (c4_find_fwhm_mutation fit2 statsZ imgGood 30000 100 100
      (by decide!) (by decide!)).2 2 (by norm_num) (by norm_num) rfl
      (by decide!)⟩

/-- The C5 claim as stated: the loop behaves as the spec's
saturated-peaks-do-not-count rule on every state. -/
def c5_claim_prop : Prop :=
  ∀ (fit : FitOracle) (med : ℚ) (img : Image) (count : ℕ) (m : ℚ) (fuel : ℕ),
    fwhm_loop fit med img count m fuel = fwhm_loop_spec fit med img count m fuel

/-- 201×401 image with a saturated interior peak at column 100 and a
fittable 40000-count peak at column 300 (outside the first cutout). -/
def imgC5 : Image :=
  ⟨201, 401, fun r c =>
    if r = 100 ∧ c = 100 then 60000
    else if r = 100 ∧ c = 300 then 40000 else 0⟩

/-- Observable projection of a loop result: the returned (fwhm, im_sig)
pair of a normal return. -/
def fwhmObs : Option (Except Unit ((ℚ × ℚ) × Image)) → Option (ℚ × ℚ)
  | some (.ok (fs, _)) => some fs
  | _ => none

/-- C5 counterexample: at the reachable state count = 100 facing a
saturated peak, the code counts the saturated iteration (count becomes
101 > 100) and bails out with (0, 0), while the spec's
saturation-does-not-count rule would go on to fit the remaining 40000
peak and return a width above 2. -/
theorem c5_counterexample : ¬ c5_claim_prop := by
  intro h
  have hobs := congrArg fwhmObs (h fit2 0 imgC5 100 60000 3)
  have hc : fwhmObs (fwhm_loop fit2 0 imgC5 100 60000 3) = some (0, 0) := by
    decide!
  have hs : fwhmObs (fwhm_loop_spec fit2 0 imgC5 100 60000 3) =
      some (2 * gaussianSigmaToFwhm, 2) := by decide!
  rw [hc, hs] at hobs
  exact absurd hobs (by decide!)

/-- C5 (amended): a saturated peak's cutout is zeroed and the scan goes
on, but the iteration counts toward the budget like any other: with the
budget already full (count ≥ 100) the saturated iteration itself triggers
the (0,0) bail-out; below the budget and above the noise floor the loop
continues on the zeroed image with count + 1; and every normal return
carries either the (0,0) bail-out or a fitted width above 2 px. -/
theorem c5_fwhm_loop_amended (fit : FitOracle) (med : ℚ) :
    (∀ (img : Image) (count : ℕ) (m : ℚ) (r c : ℤ) (fuel : ℕ),
      50000 ≤ m → argmaxFirst img m = some (r, c) → 100 ≤ count →
      ∃ m', interiorMax (zeroCutout img r c) = some m' ∧
        fwhm_loop fit med img count m (fuel + 1) =
          some (.ok ((0, 0), zeroCutout img r c))) ∧
    (∀ (img : Image) (count : ℕ) (m m' : ℚ) (r c : ℤ) (fuel : ℕ),
      50000 ≤ m → argmaxFirst img m = some (r, c) → count < 100 →
      interiorMax (zeroCutout img r c) = some m' → 1000 ≤ m' →
      fwhm_loop fit med img count m (fuel + 1) =
        fwhm_loop fit med (zeroCutout img r c) (count + 1) m' fuel) ∧
    (∀ (fuel : ℕ) (img : Image) (count : ℕ) (m : ℚ) (res : ℚ × ℚ)
      (imgF : Image),
      fwhm_loop fit med img count m fuel = some (.ok (res, imgF)) →
      res = (0, 0) ∨ 2 < res.1) := by
  refine ⟨?_, ?_, fwhm_loop_ok_values fit med⟩
  · intro img count m r c fuel hsat harg hcount
    obtain ⟨m2, hm2, _⟩ := interiorMax_after_zero harg
    refine ⟨m2, hm2, ?_⟩
    rw [fwhm_loop_succ_eq]
    rw [if_neg (not_lt.mpr (le_trans (by norm_num) hsat)), harg]
    dsimp only
    have hat : fwhm_attempt fit med m img r c = none := by
      unfold fwhm_attempt
      rw [if_neg (not_lt.mpr hsat)]
    rw [hat]
    dsimp only
    rw [hm2]
    dsimp only
    rw [if_pos (by omega : 100 < count + 1)]
  · intro img count m m' r c fuel hsat harg hcount hm' hnoise
    rw [fwhm_loop_succ_eq]
    rw [if_neg (not_lt.mpr (le_trans (by norm_num) hsat)), harg]
    dsimp only
    have hat : fwhm_attempt fit med m img r c = none := by
      unfold fwhm_attempt
      rw [if_neg (not_lt.mpr hsat)]
    rw [hat]
    dsimp only
    rw [hm']
    dsimp only
    rw [if_neg (by omega : ¬ 100 < count + 1),
      if_neg (not_lt.mpr hnoise)]

/-- C5 witness: the amended theorem at concrete states — the saturated
budget bail-out, the saturated continue step, and the return-value
characterization of a concrete bail-out run. -/
theorem c5_witness :
    (∃ m', interiorMax (zeroCutout imgSat 100 100) = some m' ∧
      fwhm_loop fitNone 0 imgSat 100 60000 (0 + 1) =
        some (.ok ((0, 0), zeroCutout imgSat 100 100))) ∧
    fwhm_loop fit2 0 imgC5 0 60000 (1 + 1) =
      fwhm_loop fit2 0 (zeroCutout imgC5 100 100) (0 + 1) 40000 1 ∧
    ((0, 0) = ((0, 0) : ℚ × ℚ) ∨ 2 < ((0, 0) : ℚ × ℚ).1) :=
  ⟨(c5_fwhm_loop_amended fitNone 0).1 imgSat 100 60000 100 100 0
      (by norm_num) (by decide!) (by norm_num),
   (c5_fwhm_loop_amended fit2 0).2.1 imgC5 0 60000 40000 100 100 1
      (by norm_num) (by decide!) (by norm_num) (by decide!) (by norm_num),
   (c5_fwhm_loop_amended fitNone 0).2.2 101 imgSat 0 60000 (0, 0)
      (zeroCutout imgSat 100 100) (by
        rw [show (101 : ℕ) = 100 + 1 from rfl, fwhm_loop_succ_eq]
        rw [if_neg (by norm_num : ¬ (60000 : ℚ) < 0)]
        rw [(by decide! : argmaxFirst imgSat 60000 = some (100, 100))]
        dsimp only
        have hat : fwhm_attempt fitNone 0 60000 imgSat 100 100 = none := by
          unfold fwhm_attempt
          rw [if_neg (by norm_num : ¬ (60000 : ℚ) < 50000)]
        rw [hat]
        dsimp only
        rw [(by decide! : interiorMax (zeroCutout imgSat 100 100) = some 0)]
        dsimp only
        rw [if_neg (by omega : ¬ (100 : ℕ) < 0 + 1),
          if_pos (by norm_num : (0 : ℚ) < 1000)])⟩

/-- The keep test that `remove_rows(d)` implements elementwise: not
crowded with any distinct-id partner in the edge-filtered table and
strictly above the significance threshold. -/
def image_mask_keep (tbl : StarTable) (fwhm bkg bkg_std : ℚ)
    (s : StarRec) : Bool :=
  !(tbl.any (fun t => crowdPairB fwhm s t)) &&
    !(decide (s.peak ≤ bkg + 10 * bkg_std))

/-- The Star Selector's survivor set as the claim words it: edge filter,
then the crowding and low-significance rejections unioned. -/
def survivorsSpec (imH imW : ℕ) (sources : StarTable)
    (fwhm bkg bkg_std : ℚ) : StarTable :=
  (sources.filter (edgeOKb imH imW)).filter
    (image_mask_keep (sources.filter (edgeOKb imH imW)) fwhm bkg bkg_std)

theorem decide_eq_bool {p : Prop} [Decidable p] {b : Bool}
    (h : p ↔ b = true) : decide p = b := by
  cases b with
  | true => exact decide_eq_true (h.mpr rfl)
  | false =>
    exact decide_eq_false (fun hp => by simpa using h.mp hp)

theorem keepRows_eq_filter {α : Type} (d : List ℕ) (g : α → Bool) :
    ∀ (l : List α) (off : ℕ) (dd : α),
      (∀ k, k < l.length → decide ((off + k) ∈ d) = !g (l.getD k dd)) →
      keepRows d off l = l.filter g := by
  intro l
  induction l with
  | nil => intro off dd _; rfl
  | cons a t ih =>
    intro off dd h
    have h0 := h 0 (Nat.succ_pos _)
    rw [Nat.add_zero, show ((a :: t).getD 0 dd) = a from rfl] at h0
    have htail : ∀ k, k < t.length →
        decide ((off + 1 + k) ∈ d) = !g (t.getD k dd) := by
      intro k hk
      have := h (k + 1) (Nat.succ_lt_succ hk)
      rwa [show off + (k + 1) = off + 1 + k by omega, List.getD_cons_succ]
        at this
    unfold keepRows
    rw [List.filter_cons]
    by_cases hmem : off ∈ d
    · rw [if_pos hmem]
      rw [decide_eq_true hmem] at h0
      have hga : g a = false := by
        cases hg : g a
        · rfl
        · rw [hg] at h0
          simp at h0
      rw [hga]
      simp only [Bool.false_eq_true, if_false]
      exact ih (off + 1) dd htail
    · rw [if_neg hmem]
      rw [decide_eq_false hmem] at h0
      have hga : g a = true := by
        cases hg : g a
        · rw [hg] at h0
          simp at h0
        · rfl
      rw [hga]
      simp only [if_true]
      rw [ih (off + 1) dd htail]

theorem mem_dRejected_iff (imH imW : ℕ) (sources : StarTable)
    (fwhm bkg bkg_std : ℚ) (k : ℕ)
    (hk : k < (sources.filter (edgeOKb imH imW)).length) :
    k ∈ dRejected imH imW sources fwhm bkg bkg_std ↔
      ((∃ t ∈ sources.filter (edgeOKb imH imW),
        crowdPairB fwhm ((sources.filter (edgeOKb imH imW)).getD k default) t
          = true) ∨
       ((sources.filter (edgeOKb imH imW)).getD k default).peak ≤
         bkg + 10 * bkg_std) := by
  unfold dRejected
  rw [List.mem_append]
  constructor
  · rintro (hc | hp)
    · left
      rw [List.mem_flatMap] at hc
      obtain ⟨i, hi, hinner⟩ := hc
      rw [List.mem_filterMap] at hinner
      obtain ⟨j, hj, hij⟩ := hinner
      rw [List.mem_range] at hj
      by_cases hcr : crowdPairB fwhm
          ((sources.filter (edgeOKb imH imW)).getD i default)
          ((sources.filter (edgeOKb imH imW)).getD j default)
      · rw [if_pos hcr] at hij
        obtain rfl := Option.some.inj hij
        exact ⟨(sources.filter (edgeOKb imH imW)).getD j default,
          getD_mem_of_lt _ j hj default, hcr⟩
      · rw [if_neg hcr] at hij
        exact Option.noConfusion hij
    · right
      rw [List.mem_filterMap] at hp
      obtain ⟨j, _, hj2⟩ := hp
      by_cases hpk : ((sources.filter (edgeOKb imH imW)).getD j default).peak ≤
          bkg + 10 * bkg_std
      · rw [if_pos hpk] at hj2
        obtain rfl := Option.some.inj hj2
        exact hpk
      · rw [if_neg hpk] at hj2
        exact Option.noConfusion hj2
  · rintro (⟨t, htmem, hcr⟩ | hp)
    · left
      rw [List.mem_flatMap]
      refine ⟨k, List.mem_range.mpr hk, ?_⟩
      rw [List.mem_filterMap]
      obtain ⟨j, hj, hgj⟩ := exists_getD_of_mem htmem default
      refine ⟨j, List.mem_range.mpr hj, ?_⟩
      rw [hgj, if_pos hcr]
    · right
      rw [List.mem_filterMap]
      refine ⟨k, List.mem_range.mpr hk, ?_⟩
      rw [if_pos hp]

/-- `remove_rows(d)` on the edge-filtered table keeps exactly the
survivors of the unioned crowding and low-significance rejections. -/
theorem kept_eq_survivors (imH imW : ℕ) (sources : StarTable)
    (fwhm bkg bkg_std : ℚ) :
    keepRows (dRejected imH imW sources fwhm bkg bkg_std) 0
      (sources.filter (edgeOKb imH imW)) =
    survivorsSpec imH imW sources fwhm bkg bkg_std := by
  apply keepRows_eq_filter
  intro k hk
  rw [Nat.zero_add]
  apply decide_eq_bool
  rw [mem_dRejected_iff imH imW sources fwhm bkg bkg_std k hk]
  unfold image_mask_keep
  rw [Bool.not_and, Bool.not_not, Bool.not_not, Bool.or_eq_true,
    List.any_eq_true, decide_eq_true_eq]

theorem starD2_nonneg (a b : StarRec) : 0 ≤ starD2 a b := by
  unfold starD2
  positivity

/-- C7: the Star Selector = edge rejection, then the union of mutual
crowding (both members of every close distinct-id pair) and low
significance (peak at or below bkg + 10*std), then a descending-flux sort
(a permutation, strictly descending when fluxes are distinct), and the
top/bottom-5 trim only when strictly more than 10 survive; every output
star passed the edge test; and the crowding test means true separation
at most 5×FWHM between distinct ids. -/
theorem c7_image_mask (imH imW : ℕ) (sources : StarTable)
    (fwhm bkg bkg_std : ℚ)
    (hflux : (survivorsSpec imH imW sources fwhm bkg bkg_std).Pairwise
      (fun a b => a.flux ≠ b.flux)) :
    (image_mask imH imW sources fwhm bkg bkg_std =
      (if 10 < (sortFluxDesc (survivorsSpec imH imW sources fwhm bkg bkg_std)).length
       then ((sortFluxDesc (survivorsSpec imH imW sources fwhm bkg bkg_std)).drop 5).take
         ((sortFluxDesc (survivorsSpec imH imW sources fwhm bkg bkg_std)).length - 10)
       else sortFluxDesc (survivorsSpec imH imW sources fwhm bkg bkg_std))) ∧
    (sortFluxDesc (survivorsSpec imH imW sources fwhm bkg bkg_std)).Perm
      (survivorsSpec imH imW sources fwhm bkg bkg_std) ∧
    (sortFluxDesc (survivorsSpec imH imW sources fwhm bkg bkg_std)).Pairwise
      (fun a b => b.flux < a.flux) ∧
    (∀ s ∈ image_mask imH imW sources fwhm bkg bkg_std,
      edgeOKb imH imW s = true) ∧
    (∀ a b : StarRec, crowdPairB fwhm a b = true ↔
      a.sid ≠ b.sid ∧
        Real.sqrt ((starD2 a b : ℚ) : ℝ) ≤ ((5 * fwhm : ℚ) : ℝ)) := by
  have hmain : image_mask imH imW sources fwhm bkg bkg_std =
      (if 10 < (sortFluxDesc (survivorsSpec imH imW sources fwhm bkg bkg_std)).length
       then ((sortFluxDesc (survivorsSpec imH imW sources fwhm bkg bkg_std)).drop 5).take
         ((sortFluxDesc (survivorsSpec imH imW sources fwhm bkg bkg_std)).length - 10)
       else sortFluxDesc (survivorsSpec imH imW sources fwhm bkg bkg_std)) := by
    simp only [image_mask]
    rw [kept_eq_survivors]
  have hperm : (sortFluxDesc (survivorsSpec imH imW sources fwhm bkg bkg_std)).Perm
      (survivorsSpec imH imW sources fwhm bkg bkg_std) :=
    List.perm_insertionSort fluxGE _
  have hsorted : (sortFluxDesc (survivorsSpec imH imW sources fwhm bkg bkg_std)).Pairwise
      fluxGE := List.sorted_insertionSort fluxGE _
  have hne : (sortFluxDesc (survivorsSpec imH imW sources fwhm bkg bkg_std)).Pairwise
      (fun a b => a.flux ≠ b.flux) :=
    (hperm.pairwise_iff (fun h => Ne.symm h)).mpr hflux
  refine ⟨hmain, hperm, ?_, ?_, ?_⟩
  · exact (hsorted.and hne).imp (fun h => lt_of_le_of_ne h.1 h.2.symm)
  · intro s hs
    rw [hmain] at hs
    have hmem : s ∈ sortFluxDesc (survivorsSpec imH imW sources fwhm bkg bkg_std) := by
      by_cases hlen :
          10 < (sortFluxDesc (survivorsSpec imH imW sources fwhm bkg bkg_std)).length
      · rw [if_pos hlen] at hs
        exact List.drop_subset 5 _ (List.take_subset _ _ hs)
      · rw [if_neg hlen] at hs
        exact hs
    have hsurv : s ∈ survivorsSpec imH imW sources fwhm bkg bkg_std :=
      hperm.mem_iff.mp hmem
    unfold survivorsSpec at hsurv
    exact (List.mem_filter.mp (List.mem_of_mem_filter hsurv)).2
  · intro a b
    unfold crowdPairB
    rw [decide_eq_true_eq]
    constructor
    · rintro ⟨hsid, ht0, hd2⟩
      refine ⟨hsid, ?_⟩
      rw [Real.sqrt_le_iff]
      constructor
      · exact_mod_cast ht0
      · rw [show (((5 * fwhm : ℚ) : ℝ)) ^ 2 = (((5 * fwhm) ^ 2 : ℚ) : ℝ) by
          push_cast; ring]
        exact_mod_cast hd2
    · rintro ⟨hsid, hsqrt⟩
      obtain ⟨h0, hx⟩ := Real.sqrt_le_iff.mp hsqrt
      refine ⟨hsid, by exact_mod_cast h0, ?_⟩
      rw [show (((5 * fwhm : ℚ) : ℝ)) ^ 2 = (((5 * fwhm) ^ 2 : ℚ) : ℝ) by
        push_cast; ring] at hx
      exact_mod_cast hx

/-- Concrete two-star table for the C7 witness. -/
def srcC7 : StarTable := [⟨1, 60, 60, 50, 5000⟩, ⟨2, 140, 140, 40, 4000⟩]

/-- C7 witness: the selector theorem applied on a concrete 200×200 frame
with two well-separated bright stars — at most 10 survivors, so the trim
is skipped and the output is the descending-flux sort of the survivors. -/
theorem c7_witness :
    image_mask 200 200 srcC7 1 100 10 =
      sortFluxDesc (survivorsSpec 200 200 srcC7 1 100 10) := by
  have h := (c7_image_mask 200 200 srcC7 1 100 10 (by decide!)).1
  rw [h, if_neg (by decide!)]
